import Mathlib

/-!
Verification of the communication-reordering scheduling pass
(`torch/_inductor/comms.py`).

Nodes of the dependency graph are identified by natural-number ids; the id
also plays the role of the node's stable name used for deterministic
tie-breaking (`tuple_sorted` sorts by name in the source; here ids are
ordered by `≤`, which fixes one admissible naming).  A graph is the list of
its nodes in their original (pre-scheduling) order.  Each node carries its
kind tag (`Compute` / `CommStart` / `Wait`, matching the `isinstance` checks
against `ir.CollectiveKernel` and `ir.Wait`), its ordered predecessor list
(`args`) and its estimated runtime cost.  The cost estimator
(`get_runtime_snode`, from `analysis.py`) is external to the core, so the
cost is modelled as an attribute supplied with the node; costs are naturals.
The `users` set of a node is derived from `args`, as in `torch.fx` where
`n.users` is exactly the set of nodes having `n` among their arguments.
The `buf_uses` map built in `smart_reordering` is never read afterwards
(dead code), so buffer sets are not modelled.  All nodes are assumed to
carry `fusion_meta` (the pass filters the others out up front; the filter
is the identity on the eligible node lists considered here).  Python
`assert` failures and non-termination of the scheduling loops are modelled
by `Option`/fuel: a fatal assertion yields `none`, and the `while` loops of
`add_all_nodes` consume one unit of fuel per pass, so an input on which the
Python code loops forever yields `none` for every fuel bound.
-/

inductive NodeKind where
  | compute : NodeKind
  | commStart : NodeKind
  | wait : NodeKind
deriving DecidableEq, Repr

structure GNode where
  id : Nat
  kind : NodeKind
  args : List Nat
  cost : Nat
deriving DecidableEq, Repr

abbrev Graph := List GNode

def lookupNode (g : Graph) (n : Nat) : Option GNode :=
  g.find? (fun x => x.id == n)

def kindOf (g : Graph) (n : Nat) : NodeKind :=
  ((lookupNode g n).map (fun x => x.kind)).getD NodeKind.compute

def argsOf (g : Graph) (n : Nat) : List Nat :=
  ((lookupNode g n).map (fun x => x.args)).getD []

def costOf (g : Graph) (n : Nat) : Nat :=
  ((lookupNode g n).map (fun x => x.cost)).getD 0

/-- Ids of the nodes of the graph, in original order. -/
def idsOf (g : Graph) : List Nat := g.map (fun x => x.id)

/-- Derived `users` set of a node: the ids of the nodes that have `n` among
their `args`, exactly as `torch.fx` maintains `Node.users`. -/
def usersOf (g : Graph) (n : Nat) : List Nat :=
  (g.filter (fun m => n ∈ m.args)).map (fun x => x.id)

def isWait (g : Graph) (n : Nat) : Bool := kindOf g n == NodeKind.wait

def isComm (g : Graph) (n : Nat) : Bool := kindOf g n == NodeKind.commStart

/-- Well-formed graph: node ids are pairwise distinct (node identity in the
Python code is object identity; distinct ids realize it). -/
def WFGraph (g : Graph) : Prop := (idsOf g).Nodup

/-- Dependency edge `u → v`: `v` is a user of `u`. -/
def Edge (g : Graph) (u v : Nat) : Prop := v ∈ usersOf g u

instance (g : Graph) (u v : Nat) : Decidable (Edge g u v) := by
  unfold Edge; infer_instance

/-- Stable insertion used to realize Python's stable `sorted`: `x` is placed
after every element `y` already present with `le y x`. -/
def insertLe (le : Nat → Nat → Bool) (x : Nat) : List Nat → List Nat
  | [] => [x]
  | y :: ys => if le y x then y :: insertLe le x ys else x :: y :: ys

/-- Stable sort by a boolean comparison (insertion sort, processing the list
left to right, ties keeping the original order). -/
def stableSort (le : Nat → Nat → Bool) (l : List Nat) : List Nat :=
  l.foldl (fun acc x => insertLe le x acc) []

/-- Deterministic iteration over a set of nodes, sorted by name
(`tuple_sorted` in the source; ids play the role of names). -/
def tuple_sorted (l : List Nat) : List Nat := stableSort (fun a b => a ≤ b) l

/-- Set-building from a list, keeping the first occurrence of each element
(Python `set(...)`; iteration order is irrelevant because every iteration
over a set goes through `tuple_sorted`). -/
def mkSet (l : List Nat) : List Nat :=
  l.foldl (fun acc x => if x ∈ acc then acc else acc ++ [x]) []

/-- sink_waits: greedily moves waits as late as possible (until a use is
reached).  A state is `(new_result, cur_waits)`. -/
def sink_step (g : Graph) (acc : List Nat × List Nat) (node : Nat) :
    List Nat × List Nat :=
  if isWait g node then
    (acc.1, if node ∈ acc.2 then acc.2 else acc.2 ++ [node])
  else
    ((acc.1 ++ (tuple_sorted acc.2).filter (fun w => node ∈ usersOf g w))
       ++ [node],
     acc.2.filter (fun w => ¬ node ∈ usersOf g w))

def sink_waits (g : Graph) (result : List Nat) : List Nat :=
  let st := result.foldl (sink_step g) ([], [])
  st.1 ++ tuple_sorted st.2

/-- release: the inner `while` of `raise_comms`: pop comms from the front of
the pending queue while some pending comm has `node` among its args.
Returns the popped prefix and the remaining queue. -/
def release (g : Graph) (node : Nat) : List Nat → List Nat × List Nat
  | [] => ([], [])
  | c :: rest =>
    if (c :: rest).any (fun cm => node ∈ argsOf g cm) then
      ((release g node rest).1.cons c, (release g node rest).2)
    else ([], c :: rest)

/-- raise_comms scan step over the reversed sequence.  A state is
`(new_result, cur_comms)`; `cur_comms` is a FIFO queue. -/
def raise_step (g : Graph) (acc : List Nat × List Nat) (node : Nat) :
    List Nat × List Nat :=
  if isComm g node then (acc.1, acc.2 ++ [node])
  else
    ((acc.1 ++ (release g node acc.2).1) ++ [node], (release g node acc.2).2)

/-- raise_comms: greedily moves comms as early as possible.  The final
`assert len(cur_comms) <= 1` is modelled by returning `none` when it
fails. -/
def raise_comms (g : Graph) (result : List Nat) : Option (List Nat) :=
  let st := result.reverse.foldl (raise_step g) ([], [])
  if st.2.length ≤ 1 then some ((st.1 ++ tuple_sorted st.2).reverse)
  else none

/-- One breadth-first round: extend the visited set `acc` by the
not-yet-visited neighbours of the frontier `cur` (in frontier order),
returning the new visited set and the new frontier. -/
def bfsRound (step : Nat → List Nat) (acc cur : List Nat) :
    List Nat × List Nat :=
  cur.foldl
    (fun p n =>
      (step n).foldl
        (fun q inp =>
          if inp ∈ q.1 then q else (q.1 ++ [inp], q.2 ++ [inp])) p)
    (acc, [])

def bfsAux (step : Nat → List Nat) : Nat → List Nat → List Nat → List Nat
  | 0, acc, _ => acc
  | fuel + 1, acc, cur =>
    if cur.isEmpty then acc
    else bfsAux step fuel (bfsRound step acc cur).1 (bfsRound step acc cur).2

/-- Fuel bound that dominates the number of BFS rounds: each productive
round adds at least one node drawn from the graph's ids or args. -/
def graphBound (g : Graph) : Nat :=
  g.length + (g.map (fun x => x.args.length)).sum + 1

/-- get_ancestors: transitive closure over predecessor (`args`) edges. -/
def get_ancestors (g : Graph) (n : Nat) : List Nat :=
  bfsAux (argsOf g) (graphBound g) [] [n]

/-- get_descendants: transitive closure over successor (`users`) edges. -/
def get_descendants (g : Graph) (n : Nat) : List Nat :=
  bfsAux (usersOf g) (graphBound g) [] [n]

/-- Modelled from the spec: `decide_global_ordering_comms` calls
`add_mutation_dep(WeakDep(...))` on scheduler nodes; `WeakDep` and the
scheduler-node dependency machinery live in `torch/_inductor/scheduler.py`
and `dependencies.py`, which are not part of the source core.  Per the
spec, the call "injects synthetic ordering edges between consecutive
communication nodes (in their original relative order)", edges that "must
still be respected by any correct schedule"; this is modelled by adding,
for every consecutive pair of comm nodes, the earlier one to the later
one's `args`.  `commIds` is the list `comm_nodes` of the ids of the
CommStart nodes, in original graph order. -/
def commIds (g : Graph) : List Nat :=
  (g.filter (fun m => m.kind == NodeKind.commStart)).map (fun x => x.id)

/-- Modelled from the spec (see `commIds`): the per-node effect of the
synthetic ordering pass — if the node is the second element of a
consecutive comm pair, the first element of that pair joins its
`args`. -/
def addSynthDep (g : Graph) (m : GNode) : GNode :=
  match ((commIds g).zip (commIds g).tail).find? (fun p => p.2 == m.id) with
  | some p => { m with args := m.args ++ [p.1] }
  | none => m

/-- Modelled from the spec (see `commIds`): the synthetic ordering pass,
adding for every consecutive pair of comm nodes the earlier one to the
later one's `args`. -/
def decide_global_ordering_comms (g : Graph) : Graph :=
  g.map (addSynthDep g)

/-- dumb_reordering: sinks waits and raises comms, nothing else. -/
def dumb_reordering (g : Graph) (nodes : List Nat) : Option (List Nat) :=
  raise_comms g (sink_waits g nodes)

/-- Scheduler state of `smart_reordering`: the in-degree dictionary (keyed
by the input nodes), the set of currently free nodes, the set of
not-yet-scheduled nodes and the schedule built so far. -/
structure SchedState where
  indeg : List (Nat × Int)
  free : List Nat
  unused : List Nat
  result : List Nat
deriving DecidableEq, Repr

def dictGet (m : List (Nat × Int)) (k : Nat) : Int :=
  ((m.find? (fun p => p.1 == k)).map (fun p => p.2)).getD 0

def dictHas (m : List (Nat × Int)) (k : Nat) : Bool :=
  (m.find? (fun p => p.1 == k)).isSome

def dictDec (m : List (Nat × Int)) (k : Nat) : List (Nat × Int) :=
  m.map (fun p => if p.1 == k then (p.1, p.2 - 1) else p)

/-- Per-user bookkeeping of add_node: if the user is tracked in the
in-degree dictionary, decrement its in-degree, and add it to the free set
when the count reaches zero. -/
def add_node_user (s : SchedState) (u : Nat) : SchedState :=
  if dictHas s.indeg u then
    let s2 : SchedState := { s with indeg := dictDec s.indeg u }
    if dictGet s2.indeg u = 0 then
      { s2 with free := if u ∈ s2.free then s2.free else s2.free ++ [u] }
    else s2
  else s

/-- add_node: schedules one node.  The two entry `assert`s (the node must be
unused and free) are modelled by `none` on failure.  After appending the
node to the result, the in-degree of each of its users that is tracked in
the dictionary is decremented, and users reaching in-degree zero join the
free set. -/
def add_node (g : Graph) (st : SchedState) (node : Nat) : Option SchedState :=
  if node ∈ st.unused ∧ node ∈ st.free then
    some ((usersOf g node).foldl add_node_user
      { st with free := st.free.erase node, unused := st.unused.erase node,
                result := st.result ++ [node] })
  else none

/-- One pass of the `while` loop of `add_all_nodes`: iterate over the
name-sorted snapshot, scheduling every member that is currently free and
removing it from the remaining set. -/
def add_all_pass (g : Graph) :
    List Nat → SchedState → List Nat → Option (SchedState × List Nat)
  | [], st, rem => some (st, rem)
  | n :: rest, st, rem =>
    if n ∈ st.free then
      (add_node g st n).bind (fun st2 => add_all_pass g rest st2 (rem.erase n))
    else add_all_pass g rest st rem

/-- Driver of the `while len(all_nodes) > 0` loop.  One unit of fuel is
consumed per pass; a cyclic remainder makes no progress and therefore
exhausts every fuel bound (the Python loop never terminates there). -/
def add_all_loop (g : Graph) : Nat → SchedState → List Nat → Option SchedState
  | 0, st, all => if all.isEmpty then some st else none
  | fuel + 1, st, all =>
    if all.isEmpty then some st
    else
      (add_all_pass g (tuple_sorted all) st all).bind
        (fun p => add_all_loop g fuel p.1 p.2)

/-- add_all_nodes: schedules a subset of nodes in an arbitrary
topologically valid (deterministic) order.  The entry
`assert all(node in unused_nodes ...)` is modelled by `none`. -/
def add_all_nodes (g : Graph) (fuel : Nat) (st : SchedState)
    (nodes : List Nat) : Option SchedState :=
  let all := mkSet nodes
  if all.all (fun n => n ∈ st.unused) then add_all_loop g fuel st all
  else none

/-- earliest_comm_descendant: index of the first comm node having the given
node among its ancestors, or the number of comm nodes if there is none. -/
def earliest_comm_descendant (g : Graph) (comms : List Nat) (node : Nat) :
    Nat :=
  match comms.findIdx? (fun c => decide (node ∈ get_ancestors g c)) with
  | some i => i
  | none => comms.length

/-- Greedy filler loop of Priority 2: walk the candidates, stop once the
accumulated cost reaches the comm cost, skip comm nodes, and skip any
candidate of which less than half would be used for overlap.  The source
compares `comm_cost - total_cost <= runtime_cost / 2` in exact (float)
arithmetic under `total_cost < comm_cost`; over naturals this is rendered
exactly by `2 * (comm_cost - total) <= cost`. -/
def priority2_loop (g : Graph) (comm_cost : Nat) :
    List Nat → SchedState → Nat → Option (SchedState × Nat)
  | [], st, total => some (st, total)
  | n :: rest, st, total =>
    if total ≥ comm_cost then some (st, total)
    else if isComm g n then priority2_loop g comm_cost rest st total
    else if 2 * (comm_cost - total) ≤ costOf g n then
      priority2_loop g comm_cost rest st total
    else
      (add_node g st n).bind
        (fun st2 => priority2_loop g comm_cost rest st2 (total + costOf g n))

/-- Priority-2 step of one main-loop iteration: if the Priority-1 work
already covers the comm cost, do nothing; otherwise pick overlap filler
among the free nodes that are not descendants of `prev`, sorted by name and
then stably by earliest comm index. -/
def priority2_step (g : Graph) (comms : List Nat) (prev : Nat)
    (comm_cost : Nat) (st : SchedState) (total : Nat) :
    Option (SchedState × Nat) :=
  if total ≥ comm_cost then some (st, total)
  else
    priority2_loop g comm_cost
      (stableSort
        (fun a b =>
          earliest_comm_descendant g comms a ≤
            earliest_comm_descendant g comms b)
        (tuple_sorted (st.free.filter (fun n => ¬ n ∈ get_descendants g prev))))
      st total

/-- Main loop of `smart_reordering` over consecutive comm pairs
`(prev, next)`, carrying the rolled-over compute cost. -/
def smart_loop (g : Graph) (comms : List Nat) (fuel : Nat) :
    List Nat → Nat → Nat → SchedState → Option SchedState
  | [], _, _, st => some st
  | next :: rest, prev, rolled, st =>
    let anc_next := get_ancestors g next
    let desc_prev := get_descendants g prev
    let priority1 := st.unused.filter
      (fun n => decide (n ∈ anc_next) && decide (¬ n ∈ desc_prev))
    let total0 := rolled + (priority1.map (costOf g)).sum
    let comm_cost := costOf g prev
    (add_all_nodes g fuel st (tuple_sorted priority1)).bind (fun st1 =>
      (priority2_step g comms prev comm_cost st1 total0).bind (fun p2 =>
        let rollable := p2.2 - total0
        let is_comm_blocking := desc_prev.any (fun n => decide (n ∈ anc_next))
        let rolled2 := if is_comm_blocking then 0 else rollable
        let priority3 := p2.1.unused.filter (fun n => decide (n ∈ anc_next))
        (add_all_nodes g fuel p2.1 (priority3 ++ [next])).bind (fun st3 =>
          smart_loop g comms fuel rest next rolled2 st3)))

/-- Initial scheduler state: in-degrees counted over the `users` edges
restricted to the input nodes, free set of in-degree-zero nodes, all nodes
unused, empty result. -/
def initState (g : Graph) (nodes : List Nat) : SchedState :=
  let indeg0 := nodes.map
    (fun u => (u, ((nodes.map (usersOf g)).flatten.count u : Int)))
  { indeg := indeg0
    free := mkSet (nodes.filter (fun n => dictGet indeg0 n = 0))
    unused := mkSet nodes
    result := [] }

/-- smart_reordering: the overlap scheduler.  Returns the input unchanged
when it contains no comm nodes; otherwise schedules the first comm's
ancestors and the comm, runs the priority loop over consecutive comm
pairs, schedules the remaining nodes, and finishes by sinking waits and
raising comms. -/
def smart_reordering (fuel : Nat) (g : Graph) (nodes : List Nat) :
    Option (List Nat) :=
  let comms := nodes.filter (fun n => isComm g n)
  match comms with
  | [] => some nodes
  | c0 :: crest =>
    (add_all_nodes g fuel (initState g nodes)
        (get_ancestors g c0 ++ [c0])).bind (fun st1 =>
      (smart_loop g (c0 :: crest) fuel crest c0 0 st1).bind (fun st2 =>
        (add_all_nodes g fuel st2 st2.unused).bind (fun st3 =>
          raise_comms g (sink_waits g st3.result))))

/-! ### Statement-level predicates -/

/-- The sequence `s` respects every dependency edge between its elements:
no element has an edge pointing back to an earlier element.  Together with
`Nodup` this says `s` is topologically ordered. -/
def TopoOrdered (g : Graph) (s : List Nat) : Prop :=
  s.Pairwise (fun u v => ¬ Edge g v u)

/-- u occurs before (an occurrence of) v in s. -/
def Precedes (s : List Nat) (u v : Nat) : Prop :=
  ∃ s1 s2, s = s1 ++ u :: s2 ∧ v ∈ s2

/-- No Wait node of the list feeds another Wait node of the list. -/
def NoWaitWait (g : Graph) (s : List Nat) : Prop :=
  ∀ u ∈ s, ∀ v ∈ s, isWait g u = true → isWait g v = true → ¬ Edge g u v

/-- No node of the list depends on itself. -/
def NoSelfLoop (g : Graph) (s : List Nat) : Prop :=
  ∀ u ∈ s, ¬ Edge g u u

instance (g : Graph) (s : List Nat) : Decidable (TopoOrdered g s) := by
  unfold TopoOrdered; infer_instance

instance (g : Graph) (s : List Nat) : Decidable (NoWaitWait g s) := by
  unfold NoWaitWait; infer_instance

instance (g : Graph) (s : List Nat) : Decidable (NoSelfLoop g s) := by
  unfold NoSelfLoop; infer_instance

instance (g : Graph) : Decidable (WFGraph g) := by
  unfold WFGraph; infer_instance

/-- Shape of a sunk sequence: after every Wait node `w`, either only Wait
nodes follow, or only Wait nodes separate `w` from the first following
non-Wait node, and that node is a user of `w`. -/
def SunkShape (g : Graph) (out : List Nat) : Prop :=
  ∀ s1 w s2, out = s1 ++ w :: s2 → isWait g w = true →
    (∀ y ∈ s2, isWait g y = true) ∨
      ∃ ws x rest, s2 = ws ++ x :: rest ∧ (∀ y ∈ ws, isWait g y = true) ∧
        isWait g x = false ∧ Edge g w x

/-- Accumulator variant of `SunkShape`: every Wait node already emitted is
separated from a following non-Wait user only by Wait nodes. -/
def SinkInvShape (g : Graph) (out : List Nat) : Prop :=
  ∀ s1 w s2, out = s1 ++ w :: s2 → isWait g w = true →
    ∃ ws x rest, s2 = ws ++ x :: rest ∧ (∀ y ∈ ws, isWait g y = true) ∧
      isWait g x = false ∧ Edge g w x

/-- Reachability between scheduler states through add_node calls. -/
inductive SchedSteps (g : Graph) : SchedState → SchedState → Prop where
  | refl (st : SchedState) : SchedSteps g st st
  | step {st st2 st3 : SchedState} {n : Nat} :
      add_node g st n = some st2 → SchedSteps g st2 st3 → SchedSteps g st st3

/-- Invariant of the scheduler state over the fixed node list `L`: the
in-degree dictionary is keyed by `L` and counts, for each node, its
not-yet-scheduled predecessors; the free set is exactly the unused nodes
of in-degree zero; the result and the unused set partition `L`; and every
scheduled node is preceded in the result by all its predecessors from
`L`. -/
structure SchedInv (g : Graph) (L : List Nat) (st : SchedState) : Prop where
  keys : st.indeg.map Prod.fst = L
  cnt : ∀ u ∈ L, dictGet st.indeg u =
    ((st.unused.filter (fun p => decide (u ∈ usersOf g p))).length : Int)
  freeIff : ∀ u, u ∈ st.free ↔ (u ∈ st.unused ∧ dictGet st.indeg u = 0)
  freeNd : st.free.Nodup
  perm : (st.result ++ st.unused).Perm L
  prec : ∀ s1 v s2, st.result = s1 ++ v :: s2 →
    ∀ p ∈ L, Edge g p v → p ∈ s1

/-! ### Concrete example graphs -/

/-- Concrete-scenario graph of the spec: `A=0, B=1, C1=2, C2=3, D=4, W1=5,
W2=6`; ids are ordered like the names `A < B < C1 < C2 < D < W1 < W2`. -/
def exG7 : Graph :=
  [⟨0, NodeKind.compute, [], 1⟩,
   ⟨1, NodeKind.compute, [5], 2⟩,
   ⟨2, NodeKind.commStart, [0], 5⟩,
   ⟨3, NodeKind.commStart, [1], 5⟩,
   ⟨4, NodeKind.compute, [6], 1⟩,
   ⟨5, NodeKind.wait, [2], 0⟩,
   ⟨6, NodeKind.wait, [3], 0⟩]

/-- Topological input order `A, C1, W1, B, C2, W2, D` for `exG7`. -/
def exL7 : List Nat := [0, 2, 5, 1, 3, 6, 4]

/-- Wait-feeds-wait graph: comm `0`, wait `1` on it, wait `2` consuming
wait `1`, compute `3` consuming wait `2`. -/
def exGWW : Graph :=
  [⟨0, NodeKind.commStart, [], 1⟩,
   ⟨1, NodeKind.wait, [0], 0⟩,
   ⟨2, NodeKind.wait, [1], 0⟩,
   ⟨3, NodeKind.compute, [2], 1⟩]

/-- Two waits (`0`, `1`) whose first (and only) user is the compute node
`2`. -/
def exGTwoWaits : Graph :=
  [⟨0, NodeKind.wait, [], 0⟩,
   ⟨1, NodeKind.wait, [], 0⟩,
   ⟨2, NodeKind.compute, [0, 1], 1⟩]

/-- Two comms whose pending releases interfere: compute `0` and `1`, comm
`2` with argument `1`, comm `3` with argument `0`. -/
def exGTwoComms : Graph :=
  [⟨0, NodeKind.compute, [], 1⟩,
   ⟨1, NodeKind.compute, [], 1⟩,
   ⟨2, NodeKind.commStart, [1], 1⟩,
   ⟨3, NodeKind.commStart, [0], 1⟩]

/-- Comm-free two-node cycle. -/
def exGCycle : Graph :=
  [⟨0, NodeKind.compute, [1], 1⟩, ⟨1, NodeKind.compute, [0], 1⟩]

/-- Two-node cycle plus a comm node depending on it. -/
def exGCycleComm : Graph :=
  [⟨0, NodeKind.compute, [1], 1⟩,
   ⟨1, NodeKind.compute, [0], 1⟩,
   ⟨2, NodeKind.commStart, [0], 1⟩]

/-! ### Basic properties of the deterministic-iteration helpers -/

theorem insertLe_perm (le : Nat → Nat → Bool) (x : Nat) :
    ∀ l : List Nat, (insertLe le x l).Perm (x :: l) := by
  intro l
  induction l with
  | nil => simp [insertLe]
  | cons y ys ih =>
    by_cases h : le y x = true
    · simp only [insertLe, h, if_true]
      exact ((ih.cons y).trans (List.Perm.swap x y ys))
    · simp [insertLe, h]

theorem stableSort_perm_aux (le : Nat → Nat → Bool) :
    ∀ (l acc : List Nat),
      (l.foldl (fun a x => insertLe le x a) acc).Perm (acc ++ l) := by
  intro l
  induction l with
  | nil => intro acc; simp
  | cons x rest ih =>
    intro acc
    refine (ih (insertLe le x acc)).trans ?_
    have h1 : (insertLe le x acc ++ rest).Perm ((x :: acc) ++ rest) :=
      (insertLe_perm le x acc).append_right rest
    refine h1.trans ?_
    simp only [List.cons_append]
    exact List.perm_middle.symm

theorem stableSort_perm (le : Nat → Nat → Bool) (l : List Nat) :
    (stableSort le l).Perm l := by
  simpa using stableSort_perm_aux le l []

theorem tuple_sorted_perm (l : List Nat) : (tuple_sorted l).Perm l :=
  stableSort_perm _ l

theorem mem_tuple_sorted {a : Nat} {l : List Nat} :
    a ∈ tuple_sorted l ↔ a ∈ l := (tuple_sorted_perm l).mem_iff

theorem tuple_sorted_nodup {l : List Nat} (h : l.Nodup) :
    (tuple_sorted l).Nodup := (tuple_sorted_perm l).nodup_iff.mpr h

theorem insertLe_of_forall {le : Nat → Nat → Bool} {x : Nat} :
    ∀ {l : List Nat}, (∀ y ∈ l, le y x = true) → insertLe le x l = l ++ [x] := by
  intro l
  induction l with
  | nil => intro _; rfl
  | cons y ys ih =>
    intro h
    have hy : le y x = true := h y (by simp)
    simp only [insertLe, hy, if_true, List.cons_append, List.cons.injEq, true_and]
    exact ih (fun z hz => h z (by simp [hz]))

theorem stableSort_of_pairwise_aux {le : Nat → Nat → Bool} :
    ∀ (l acc : List Nat), (∀ y ∈ acc, ∀ x ∈ l, le y x = true) →
      l.Pairwise (fun a b => le a b = true) →
      l.foldl (fun a x => insertLe le x a) acc = acc ++ l := by
  intro l
  induction l with
  | nil => intro acc _ _; simp
  | cons x rest ih =>
    intro acc hcross hp
    have h1 : insertLe le x acc = acc ++ [x] :=
      insertLe_of_forall (fun y hy => hcross y hy x (by simp))
    have hcross2 : ∀ y ∈ acc ++ [x], ∀ z ∈ rest, le y z = true := by
      intro y hy z hz
      rcases List.mem_append.mp hy with h | h
      · exact hcross y h z (by simp [hz])
      · have hyx : y = x := by simpa using h
        subst hyx
        exact (List.pairwise_cons.mp hp).1 z hz
    simp only [List.foldl_cons, h1]
    rw [ih (acc ++ [x]) hcross2 (List.Pairwise.sublist (by simp) hp)]
    simp

theorem stableSort_of_pairwise {le : Nat → Nat → Bool} {l : List Nat}
    (hp : l.Pairwise (fun a b => le a b = true)) : stableSort le l = l := by
  simpa using stableSort_of_pairwise_aux l [] (by simp) hp

theorem pairwise_insertLe {le : Nat → Nat → Bool}
    (htrans : ∀ a b c, le a b = true → le b c = true → le a c = true)
    (htot : ∀ a b, le a b = true ∨ le b a = true) (x : Nat) :
    ∀ {l : List Nat}, l.Pairwise (fun a b => le a b = true) →
      (insertLe le x l).Pairwise (fun a b => le a b = true) := by
  intro l
  induction l with
  | nil => intro _; simp [insertLe]
  | cons y ys ih =>
    intro hp
    rcases List.pairwise_cons.mp hp with ⟨hy, hys⟩
    by_cases h : le y x = true
    · simp only [insertLe, h, if_true]
      refine List.pairwise_cons.mpr ⟨?_, ih hys⟩
      intro z hz
      rcases List.mem_cons.mp ((insertLe_perm le x ys).mem_iff.mp hz) with h1 | h1
      · subst h1; exact h
      · exact hy z h1
    · have hxy : le x y = true := (htot x y).resolve_right (by simpa using h)
      simp only [insertLe, h, if_false]
      refine List.pairwise_cons.mpr ⟨?_, hp⟩
      intro z hz
      rcases List.mem_cons.mp hz with h1 | h1
      · subst h1; exact hxy
      · exact htrans x y z hxy (hy z h1)

theorem pairwise_stableSort {le : Nat → Nat → Bool}
    (htrans : ∀ a b c, le a b = true → le b c = true → le a c = true)
    (htot : ∀ a b, le a b = true ∨ le b a = true) :
    ∀ (l acc : List Nat), acc.Pairwise (fun a b => le a b = true) →
      (l.foldl (fun a x => insertLe le x a) acc).Pairwise
        (fun a b => le a b = true) := by
  intro l
  induction l with
  | nil => intro acc h; simpa using h
  | cons x rest ih =>
    intro acc h
    exact ih (insertLe le x acc) (pairwise_insertLe htrans htot x h)

theorem tuple_sorted_sorted (l : List Nat) :
    (tuple_sorted l).Pairwise (fun a b => a ≤ b) := by
  have h := @pairwise_stableSort (fun a b : Nat => decide (a ≤ b))
    (by intro a b c h1 h2; simp only [decide_eq_true_eq] at *; omega)
    (by intro a b; simp only [decide_eq_true_eq]; omega) l [] (by simp)
  refine h.imp ?_
  intro a b hab
  simpa using hab

theorem tuple_sorted_of_sorted {l : List Nat}
    (h : l.Pairwise (fun a b => a ≤ b)) : tuple_sorted l = l := by
  refine stableSort_of_pairwise (h.imp ?_)
  intro a b hab
  simpa using hab

theorem tuple_sorted_idem (l : List Nat) :
    tuple_sorted (tuple_sorted l) = tuple_sorted l :=
  tuple_sorted_of_sorted (tuple_sorted_sorted l)

theorem mkSet_aux_mem :
    ∀ (l acc : List Nat) (a : Nat),
      a ∈ l.foldl (fun acc x => if x ∈ acc then acc else acc ++ [x]) acc ↔
        a ∈ acc ∨ a ∈ l := by
  intro l
  induction l with
  | nil => intro acc a; simp
  | cons x rest ih =>
    intro acc a
    by_cases h : x ∈ acc
    · simp only [List.foldl_cons, h, if_true, ih]
      constructor
      · rintro (h1 | h1)
        · exact Or.inl h1
        · exact Or.inr (by simp [h1])
      · rintro (h1 | h1)
        · exact Or.inl h1
        · rcases List.mem_cons.mp h1 with h2 | h2
          · exact Or.inl (h2 ▸ h)
          · exact Or.inr h2
    · simp only [List.foldl_cons, h, if_false, ih]
      simp only [List.mem_append, List.mem_singleton, List.mem_cons]
      tauto

theorem mem_mkSet {a : Nat} {l : List Nat} : a ∈ mkSet l ↔ a ∈ l := by
  simpa using mkSet_aux_mem l [] a

theorem mkSet_aux_nodup :
    ∀ (l acc : List Nat), acc.Nodup →
      (l.foldl (fun acc x => if x ∈ acc then acc else acc ++ [x]) acc).Nodup := by
  intro l
  induction l with
  | nil => intro acc h; simpa using h
  | cons x rest ih =>
    intro acc h
    by_cases hx : x ∈ acc
    · simpa [hx] using ih acc h
    · simp only [List.foldl_cons, hx, if_false]
      refine ih _ ?_
      simp [List.nodup_append, h, hx]

theorem mkSet_nodup (l : List Nat) : (mkSet l).Nodup :=
  mkSet_aux_nodup l [] (by simp)

theorem mkSet_aux_of_nodup :
    ∀ (l acc : List Nat), (∀ x ∈ l, x ∉ acc) → l.Nodup →
      l.foldl (fun acc x => if x ∈ acc then acc else acc ++ [x]) acc =
        acc ++ l := by
  intro l
  induction l with
  | nil => intro acc _ _; simp
  | cons x rest ih =>
    intro acc hdisj hnd
    have hx : x ∉ acc := hdisj x (by simp)
    have hdisj2 : ∀ z ∈ rest, z ∉ acc ++ [x] := by
      intro z hz
      simp only [List.mem_append, List.mem_singleton]
      push_neg
      refine ⟨hdisj z (by simp [hz]), ?_⟩
      intro h
      subst h
      exact ((List.nodup_cons.mp hnd).1 hz).elim
    simp only [List.foldl_cons, hx, if_false]
    rw [ih (acc ++ [x]) hdisj2 (List.Nodup.sublist (by simp) hnd)]
    simp

theorem mkSet_of_nodup {l : List Nat} (h : l.Nodup) : mkSet l = l := by
  simpa using mkSet_aux_of_nodup l [] (by simp) h

theorem smart_reordering_no_comm {fuel : Nat} {g : Graph} {nodes : List Nat}
    (hf : nodes.filter (fun n => isComm g n) = []) :
    smart_reordering fuel g nodes = some nodes := by
  unfold smart_reordering
  rw [hf]

theorem add_all_loop_stuck {g : Graph} {st : SchedState} {all : List Nat}
    (hne : all.isEmpty = false)
    (hpass : add_all_pass g (tuple_sorted all) st all = some (st, all)) :
    ∀ fuel, add_all_loop g fuel st all = none := by
  intro fuel
  induction fuel with
  | zero => simp [add_all_loop, hne]
  | succ n ih => simp [add_all_loop, hne, hpass, ih]

theorem add_all_nodes_unfold {g : Graph} {st : SchedState} {nodes : List Nat}
    (h : (mkSet nodes).all (fun n => n ∈ st.unused) = true) (fuel : Nat) :
    add_all_nodes g fuel st nodes = add_all_loop g fuel st (mkSet nodes) := by
  unfold add_all_nodes
  rw [if_pos h]

theorem smart_none_of_first_add_all {g : Graph} {nodes : List Nat}
    {c0 : Nat} {crest : List Nat} {fuel : Nat}
    (hf : nodes.filter (fun n => isComm g n) = c0 :: crest)
    (h : add_all_nodes g fuel (initState g nodes)
      (get_ancestors g c0 ++ [c0]) = none) :
    smart_reordering fuel g nodes = none := by
  unfold smart_reordering
  rw [hf]
  simp only [h, Option.none_bind]

/-! ### Frame lemmas: the cleanup passes move only their target kind -/

theorem sink_waits_eq (g : Graph) (l : List Nat) :
    sink_waits g l =
      (l.foldl (sink_step g) ([], [])).1 ++
        tuple_sorted (l.foldl (sink_step g) ([], [])).2 := rfl

theorem raise_comms_eq (g : Graph) (l : List Nat) :
    raise_comms g l =
      if (l.reverse.foldl (raise_step g) ([], [])).2.length ≤ 1 then
        some (((l.reverse.foldl (raise_step g) ([], [])).1 ++
          tuple_sorted (l.reverse.foldl (raise_step g) ([], [])).2).reverse)
      else none := rfl

theorem release_append (g : Graph) (x : Nat) :
    ∀ Q : List Nat, (release g x Q).1 ++ (release g x Q).2 = Q := by
  intro Q
  induction Q with
  | nil => rfl
  | cons c rest ih =>
    simp only [release]
    by_cases h : (c :: rest).any (fun cm => x ∈ argsOf g cm) = true
    · simp [h, ih]
    · simp [h]

theorem release_fst_subset {g : Graph} {x : Nat} {Q : List Nat} :
    ∀ c ∈ (release g x Q).1, c ∈ Q := by
  intro c hc
  rw [← release_append g x Q]
  exact List.mem_append.mpr (Or.inl hc)

theorem release_snd_subset {g : Graph} {x : Nat} {Q : List Nat} :
    ∀ c ∈ (release g x Q).2, c ∈ Q := by
  intro c hc
  rw [← release_append g x Q]
  exact List.mem_append.mpr (Or.inr hc)

theorem sink_fold_filter (g : Graph) :
    ∀ (l A P : List Nat), (∀ w ∈ P, isWait g w = true) →
      ((l.foldl (sink_step g) (A, P)).1.filter (fun n => !(isWait g n)) =
          A.filter (fun n => !(isWait g n)) ++
            l.filter (fun n => !(isWait g n))) ∧
        (∀ w ∈ (l.foldl (sink_step g) (A, P)).2, isWait g w = true) := by
  intro l
  induction l with
  | nil => intro A P hP; exact ⟨by simp, hP⟩
  | cons x rest ih =>
    intro A P hP
    by_cases hx : isWait g x = true
    · have hstep : sink_step g (A, P) x =
          (A, if x ∈ P then P else P ++ [x]) := by
        simp [sink_step, hx]
      have hP2 : ∀ w ∈ (if x ∈ P then P else P ++ [x]), isWait g w = true := by
        by_cases hmem : x ∈ P
        · simpa [hmem] using hP
        · simp only [hmem, if_false]
          intro w hw
          rcases List.mem_append.mp hw with h | h
          · exact hP w h
          · have : w = x := by simpa using h
            subst this; exact hx
      have := ih A (if x ∈ P then P else P ++ [x]) hP2
      constructor
      · rw [List.foldl_cons, hstep]
        rw [this.1]
        simp [hx]
      · rw [List.foldl_cons, hstep]
        exact this.2
    · have hstep : sink_step g (A, P) x =
          ((A ++ (tuple_sorted P).filter (fun w => x ∈ usersOf g w)) ++ [x],
            P.filter (fun w => ¬ x ∈ usersOf g w)) := by
        simp [sink_step, hx]
      have hP2 : ∀ w ∈ P.filter (fun w => ¬ x ∈ usersOf g w),
          isWait g w = true := by
        intro w hw
        exact hP w (List.mem_of_mem_filter hw)
      have := ih ((A ++ (tuple_sorted P).filter (fun w => x ∈ usersOf g w))
        ++ [x]) (P.filter (fun w => ¬ x ∈ usersOf g w)) hP2
      constructor
      · rw [List.foldl_cons, hstep, this.1]
        have hrel : ((tuple_sorted P).filter
            (fun w => x ∈ usersOf g w)).filter (fun n => !(isWait g n)) = [] := by
          rw [List.filter_eq_nil_iff]
          intro a ha
          have : a ∈ P := mem_tuple_sorted.mp (List.mem_of_mem_filter ha)
          simp [hP a this]
        simp only [List.filter_append, hrel, hx]
        simp [hx]
      · rw [List.foldl_cons, hstep]
        exact this.2

/-- The non-Wait subsequence of the output of sink_waits is exactly the
non-Wait subsequence of its input. -/
theorem sink_waits_frame (g : Graph) (l : List Nat) :
    (sink_waits g l).filter (fun n => !(isWait g n)) =
      l.filter (fun n => !(isWait g n)) := by
  have h := sink_fold_filter g l [] [] (by simp)
  rw [sink_waits_eq, List.filter_append, h.1]
  have htail : (tuple_sorted (l.foldl (sink_step g) ([], [])).2).filter
      (fun n => !(isWait g n)) = [] := by
    rw [List.filter_eq_nil_iff]
    intro a ha
    have := h.2 a (mem_tuple_sorted.mp ha)
    simp [this]
  simp [htail]

theorem raise_fold_frame (g : Graph) :
    ∀ (rl A Q : List Nat), (∀ c ∈ Q, isComm g c = true) →
      ((rl.foldl (raise_step g) (A, Q)).1.filter (fun n => !(isComm g n)) =
          A.filter (fun n => !(isComm g n)) ++
            rl.filter (fun n => !(isComm g n))) ∧
        ((rl.foldl (raise_step g) (A, Q)).1.filter (fun n => isComm g n) ++
            (rl.foldl (raise_step g) (A, Q)).2 =
          (A.filter (fun n => isComm g n) ++ Q) ++
            rl.filter (fun n => isComm g n)) ∧
        (∀ c ∈ (rl.foldl (raise_step g) (A, Q)).2, isComm g c = true) := by
  intro rl
  induction rl with
  | nil => intro A Q hQ; exact ⟨by simp, by simp, hQ⟩
  | cons x rest ih =>
    intro A Q hQ
    by_cases hx : isComm g x = true
    · have hstep : raise_step g (A, Q) x = (A, Q ++ [x]) := by
        simp [raise_step, hx]
      have hQ2 : ∀ c ∈ Q ++ [x], isComm g c = true := by
        intro c hc
        rcases List.mem_append.mp hc with h | h
        · exact hQ c h
        · have : c = x := by simpa using h
          subst this; exact hx
      have := ih A (Q ++ [x]) hQ2
      refine ⟨?_, ?_, ?_⟩
      · rw [List.foldl_cons, hstep, this.1]
        simp [hx]
      · rw [List.foldl_cons, hstep, this.2.1]
        simp [hx]
      · rw [List.foldl_cons, hstep]
        exact this.2.2
    · have hstep : raise_step g (A, Q) x =
          ((A ++ (release g x Q).1) ++ [x], (release g x Q).2) := by
        simp [raise_step, hx]
      have hrelcomm : ∀ c ∈ (release g x Q).1, isComm g c = true :=
        fun c hc => hQ c (release_fst_subset c hc)
      have hremcomm : ∀ c ∈ (release g x Q).2, isComm g c = true :=
        fun c hc => hQ c (release_snd_subset c hc)
      have := ih ((A ++ (release g x Q).1) ++ [x]) (release g x Q).2 hremcomm
      have hrelf : ((release g x Q).1).filter (fun n => !(isComm g n)) = [] := by
        rw [List.filter_eq_nil_iff]
        intro a ha
        simp [hrelcomm a ha]
      have hrelf2 : ((release g x Q).1).filter (fun n => isComm g n) =
          (release g x Q).1 := by
        rw [List.filter_eq_self]
        exact hrelcomm
      refine ⟨?_, ?_, ?_⟩
      · rw [List.foldl_cons, hstep, this.1]
        simp [List.filter_append, hrelf, hx]
      · rw [List.foldl_cons, hstep, this.2.1]
        have hx1 : List.filter (fun n => isComm g n) [x] = [] := by
          simp [hx]
        simp only [List.filter_append, hrelf2, hx1, List.append_nil,
          List.append_assoc]
        rw [← List.append_assoc (release g x Q).1 (release g x Q).2,
          release_append]
        simp [List.filter_cons, hx]
      · rw [List.foldl_cons, hstep]
        exact this.2.2

theorem tuple_sorted_len_le_one {Q : List Nat} (h : Q.length ≤ 1) :
    tuple_sorted Q = Q := by
  match Q with
  | [] => rfl
  | [a] => rfl
  | a :: b :: rest => simp at h

/-- The non-CommStart subsequence of the output of raise_comms is exactly
the non-CommStart subsequence of its input. -/
theorem raise_comms_frame {g : Graph} {l out : List Nat}
    (h : raise_comms g l = some out) :
    out.filter (fun n => !(isComm g n)) = l.filter (fun n => !(isComm g n)) := by
  rw [raise_comms_eq] at h
  by_cases hlen : (l.reverse.foldl (raise_step g) ([], [])).2.length ≤ 1
  · rw [if_pos hlen] at h
    have hout := Option.some.inj h
    subst hout
    have hf := raise_fold_frame g l.reverse [] [] (by simp)
    rw [List.filter_reverse, List.filter_append, hf.1]
    have htail : (tuple_sorted (l.reverse.foldl (raise_step g) ([], [])).2).filter
        (fun n => !(isComm g n)) = [] := by
      rw [List.filter_eq_nil_iff]
      intro a ha
      have := hf.2.2 a (mem_tuple_sorted.mp ha)
      simp [this]
    rw [htail]
    simp [List.filter_reverse]
  · rw [if_neg hlen] at h
    exact absurd h (by simp)

/-- The CommStart subsequence of the output of raise_comms is exactly the
CommStart subsequence of its input (used for comm-order preservation). -/
theorem raise_comms_comm_subseq {g : Graph} {l out : List Nat}
    (h : raise_comms g l = some out) :
    out.filter (fun n => isComm g n) = l.filter (fun n => isComm g n) := by
  rw [raise_comms_eq] at h
  by_cases hlen : (l.reverse.foldl (raise_step g) ([], [])).2.length ≤ 1
  · rw [if_pos hlen] at h
    have hout := Option.some.inj h
    subst hout
    have hf := raise_fold_frame g l.reverse [] [] (by simp)
    have h2 : (l.reverse.foldl (raise_step g) ([], [])).2.filter
        (fun n => isComm g n) = (l.reverse.foldl (raise_step g) ([], [])).2 :=
      List.filter_eq_self.mpr hf.2.2
    rw [tuple_sorted_len_le_one hlen, List.filter_reverse, List.filter_append,
      h2]
    have heq := hf.2.1
    simp only [List.filter_nil, List.nil_append] at heq
    rw [heq, List.filter_reverse, List.reverse_reverse]
  · rw [if_neg hlen] at h
    exact absurd h (by simp)

/-! ### Shape of the sunk sequence (Wait placement) -/

theorem append_cons_split {A B s1 s2 : List Nat} {w : Nat}
    (h : A ++ B = s1 ++ w :: s2) :
    (∃ t, A = s1 ++ w :: t ∧ s2 = t ++ B) ∨
      (∃ t, s1 = A ++ t ∧ B = t ++ w :: s2) := by
  rcases List.append_eq_append_iff.mp h with ⟨a', h1, h2⟩ | ⟨c', h1, h2⟩
  · exact Or.inr ⟨a', h1, h2⟩
  · cases c' with
    | nil =>
      simp only [List.nil_append] at h2
      exact Or.inr ⟨[], by simp [h1], by simp [h2]⟩
    | cons w2 t =>
      simp only [List.cons_append, List.cons.injEq] at h2
      rcases h2 with ⟨hw, hs2⟩
      subst hw
      exact Or.inl ⟨t, h1, hs2⟩

theorem sinkInvShape_nil (g : Graph) : SinkInvShape g [] := by
  intro s1 w s2 h
  exact absurd h (by simp)

theorem sinkInvShape_step {g : Graph} {A P : List Nat} {x : Nat}
    (hA : SinkInvShape g A) (hP : ∀ w ∈ P, isWait g w = true)
    (hx : isWait g x = false) :
    SinkInvShape g
      ((A ++ (tuple_sorted P).filter (fun w => x ∈ usersOf g w)) ++ [x]) := by
  intro s1 w s2 hsplit hw
  rw [List.append_assoc] at hsplit
  rcases append_cons_split hsplit with ⟨t, hA2, hs2⟩ | ⟨t, hs1, hB⟩
  · rcases hA s1 w t hA2 hw with ⟨ws, x0, rest, hdec, hws, hx0, he⟩
    exact ⟨ws, x0, rest ++ ((tuple_sorted P).filter
      (fun w => x ∈ usersOf g w) ++ [x]), by rw [hs2, hdec]; simp, hws, hx0, he⟩
  · rcases append_cons_split hB with ⟨t2, hR, hs2⟩ | ⟨t2, ht, hX⟩
    · refine ⟨t2, x, [], by simpa using hs2, ?_, hx, ?_⟩
      · intro y hy
        have hyR : y ∈ (tuple_sorted P).filter (fun w => x ∈ usersOf g w) := by
          rw [hR]
          simp [hy]
        exact hP y (mem_tuple_sorted.mp (List.mem_of_mem_filter hyR))
      · have hwR : w ∈ (tuple_sorted P).filter (fun w => x ∈ usersOf g w) := by
          rw [hR]
          simp
        have := List.of_mem_filter hwR
        simpa [Edge] using this
    · cases t2 with
      | nil =>
        simp only [List.nil_append, List.cons.injEq] at hX
        rcases hX with ⟨hwx, _⟩
        subst hwx
        rw [hw] at hx
        exact absurd hx (by simp)
      | cons a t3 =>
        simp only [List.cons_append, List.cons.injEq] at hX
        rcases hX with ⟨_, hX2⟩
        exact absurd hX2.symm (by simp)

theorem sink_fold_shape (g : Graph) :
    ∀ (l A P : List Nat), SinkInvShape g A → (∀ w ∈ P, isWait g w = true) →
      SinkInvShape g (l.foldl (sink_step g) (A, P)).1 := by
  intro l
  induction l with
  | nil => intro A P hA _; simpa using hA
  | cons x rest ih =>
    intro A P hA hP
    by_cases hx : isWait g x = true
    · have hstep : sink_step g (A, P) x =
          (A, if x ∈ P then P else P ++ [x]) := by
        simp [sink_step, hx]
      rw [List.foldl_cons, hstep]
      refine ih A _ hA ?_
      by_cases hmem : x ∈ P
      · simpa [hmem] using hP
      · simp only [hmem, if_false]
        intro w hw
        rcases List.mem_append.mp hw with h | h
        · exact hP w h
        · have : w = x := by simpa using h
          subst this; exact hx
    · have hxf : isWait g x = false := by simpa using hx
      have hstep : sink_step g (A, P) x =
          ((A ++ (tuple_sorted P).filter (fun w => x ∈ usersOf g w)) ++ [x],
            P.filter (fun w => ¬ x ∈ usersOf g w)) := by
        simp [sink_step, hx]
      rw [List.foldl_cons, hstep]
      exact ih _ _ (sinkInvShape_step hA hP hxf)
        (fun w hw => hP w (List.mem_of_mem_filter hw))

theorem sunkShape_of_parts {g : Graph} {A T : List Nat}
    (hA : SinkInvShape g A) (hT : ∀ y ∈ T, isWait g y = true) :
    SunkShape g (A ++ T) := by
  intro s1 w s2 hsplit hw
  rcases append_cons_split hsplit with ⟨t, hA2, hs2⟩ | ⟨t, _, hB⟩
  · rcases hA s1 w t hA2 hw with ⟨ws, x0, rest, hdec, hws, hx0, he⟩
    exact Or.inr ⟨ws, x0, rest ++ T, by rw [hs2, hdec]; simp, hws, hx0, he⟩
  · refine Or.inl ?_
    intro y hy
    refine hT y ?_
    rw [hB]
    simp [hy]

/-- Every output of sink_waits has the sunk shape. -/
theorem sink_waits_shape (g : Graph) (l : List Nat) :
    SunkShape g (sink_waits g l) := by
  rw [sink_waits_eq]
  refine sunkShape_of_parts
    (sink_fold_shape g l [] [] (sinkInvShape_nil g) (by simp)) ?_
  intro y hy
  exact (sink_fold_filter g l [] [] (by simp)).2 y (mem_tuple_sorted.mp hy)

/-! ### Closed forms of raise_comms on single-comm sequences -/

theorem raise_fold_noncomm_empty (g : Graph) :
    ∀ (ns A : List Nat), (∀ n ∈ ns, isComm g n = false) →
      ns.foldl (raise_step g) (A, []) = (A ++ ns, []) := by
  intro ns
  induction ns with
  | nil => intro A _; simp
  | cons x rest ih =>
    intro A h
    have hx : isComm g x = false := h x (by simp)
    have hstep : raise_step g (A, []) x = (A ++ [x], []) := by
      simp [raise_step, hx, release]
    rw [List.foldl_cons, hstep, ih (A ++ [x]) (fun n hn => h n (by simp [hn]))]
    simp

theorem raise_fold_noncomm_single (g : Graph) (c : Nat) :
    ∀ (ns A : List Nat), (∀ n ∈ ns, isComm g n = false) →
      (∀ n ∈ ns, ¬ n ∈ argsOf g c) →
      ns.foldl (raise_step g) (A, [c]) = (A ++ ns, [c]) := by
  intro ns
  induction ns with
  | nil => intro A _ _; simp
  | cons x rest ih =>
    intro A h hargs
    have hx : isComm g x = false := h x (by simp)
    have hxa : ¬ x ∈ argsOf g c := hargs x (by simp)
    have hrel : release g x [c] = ([], [c]) := by
      simp [release, hxa]
    have hstep : raise_step g (A, [c]) x = (A ++ [x], [c]) := by
      simp [raise_step, hx, hrel]
    rw [List.foldl_cons, hstep,
      ih (A ++ [x]) (fun n hn => h n (by simp [hn]))
        (fun n hn => hargs n (by simp [hn]))]
    simp

theorem raise_step_trigger (g : Graph) (c t : Nat) (A : List Nat)
    (ht : isComm g t = false) (hta : t ∈ argsOf g c) :
    raise_step g (A, [c]) t = ((A ++ [c]) ++ [t], []) := by
  have hrel : release g t [c] = ([c], []) := by
    simp [release, hta]
  simp [raise_step, ht, hrel]

/-- Closed forms of raise_comms for a sequence with a single CommStart `c`
whose in-sequence arguments all precede it: if some element of `l1` is an
argument of `c`, the comm lands immediately after the last such element;
otherwise the comm becomes the first element. -/
theorem raise_single_comm (g : Graph) (l1 l2 : List Nat) (c : Nat)
    (hc : isComm g c = true)
    (hnc : ∀ n ∈ l1 ++ l2, isComm g n = false) :
    ((∀ a ∈ l1, ¬ a ∈ argsOf g c) →
        raise_comms g (l1 ++ c :: l2) = some (c :: (l1 ++ l2))) ∧
      ∀ m1 t m2, l1 = m1 ++ t :: m2 → t ∈ argsOf g c →
        (∀ b ∈ m2, ¬ b ∈ argsOf g c) →
        raise_comms g (l1 ++ c :: l2) = some (m1 ++ t :: c :: (m2 ++ l2)) := by
  have hrev : (l1 ++ c :: l2).reverse = l2.reverse ++ c :: l1.reverse := by
    simp
  have hl2nc : ∀ n ∈ l2.reverse, isComm g n = false := by
    intro n hn
    exact hnc n (by simp at hn; simp [hn])
  have hl1nc : ∀ n ∈ l1, isComm g n = false := by
    intro n hn
    exact hnc n (by simp [hn])
  constructor
  · intro hnoarg
    have hfold : (l1 ++ c :: l2).reverse.foldl (raise_step g) ([], []) =
        ((l2.reverse ++ l1.reverse), [c]) := by
      rw [hrev, List.foldl_append]
      rw [raise_fold_noncomm_empty g l2.reverse [] hl2nc]
      simp only [List.nil_append, List.foldl_cons]
      have hcstep : raise_step g (l2.reverse, []) c = (l2.reverse, [c]) := by
        simp [raise_step, hc]
      rw [hcstep,
        raise_fold_noncomm_single g c l1.reverse l2.reverse
          (fun n hn => hl1nc n (by simpa using hn))
          (fun n hn => hnoarg n (by simpa using hn))]
    rw [raise_comms_eq, hfold]
    rw [tuple_sorted_len_le_one (by simp)]
    simp
  · intro m1 t m2 hsplit hta hm2
    have htnc : isComm g t = false := hl1nc t (by simp [hsplit])
    have hfold : (l1 ++ c :: l2).reverse.foldl (raise_step g) ([], []) =
        (((l2.reverse ++ m2.reverse) ++ [c] ++ [t]) ++ m1.reverse, []) := by
      rw [hrev, List.foldl_append]
      rw [raise_fold_noncomm_empty g l2.reverse [] hl2nc]
      simp only [List.nil_append, List.foldl_cons]
      have hcstep : raise_step g (l2.reverse, []) c = (l2.reverse, [c]) := by
        simp [raise_step, hc]
      rw [hcstep]
      have hl1rev : l1.reverse = m2.reverse ++ t :: m1.reverse := by
        rw [hsplit]
        simp
      rw [hl1rev, List.foldl_append]
      rw [raise_fold_noncomm_single g c m2.reverse l2.reverse
        (fun n hn => hl1nc n (by rw [hsplit]; simp at hn; simp [hn]))
        (fun n hn => hm2 n (by simpa using hn))]
      rw [List.foldl_cons, raise_step_trigger g c t _ htnc hta]
      rw [raise_fold_noncomm_empty g m1.reverse _
        (fun n hn => hl1nc n (by rw [hsplit]; simp at hn; simp [hn]))]
    rw [raise_comms_eq, hfold]
    rw [show tuple_sorted ([] : List Nat) = [] from rfl]
    simp

/-! ### Idempotence of the cleanup passes -/

theorem foldl_acc_split (f : List Nat × List Nat → Nat → List Nat × List Nat)
    (h : ∀ A P x, f (A, P) x = (A ++ (f ([], P) x).1, (f ([], P) x).2)) :
    ∀ (l : List Nat) (A P : List Nat),
      l.foldl f (A, P) =
        (A ++ (l.foldl f ([], P)).1, (l.foldl f ([], P)).2) := by
  intro l
  induction l with
  | nil => intro A P; simp
  | cons x rest ih =>
    intro A P
    obtain ⟨a0, p0, hfx⟩ : ∃ a0 p0, f ([], P) x = (a0, p0) := ⟨_, _, rfl⟩
    rw [List.foldl_cons, List.foldl_cons, h A P x, hfx]
    rw [ih (A ++ a0) p0, ih a0 p0]
    simp

theorem sink_step_acc (g : Graph) :
    ∀ (A P : List Nat) (x : Nat),
      sink_step g (A, P) x =
        (A ++ (sink_step g ([], P) x).1, (sink_step g ([], P) x).2) := by
  intro A P x
  by_cases hx : isWait g x = true
  · simp [sink_step, hx]
  · simp [sink_step, hx]

theorem raise_step_acc (g : Graph) :
    ∀ (A Q : List Nat) (x : Nat),
      raise_step g (A, Q) x =
        (A ++ (raise_step g ([], Q) x).1, (raise_step g ([], Q) x).2) := by
  intro A Q x
  by_cases hx : isComm g x = true
  · simp [raise_step, hx]
  · simp [raise_step, hx]

theorem sink_fold_pending_nodup (g : Graph) :
    ∀ (l A P : List Nat), P.Nodup →
      (l.foldl (sink_step g) (A, P)).2.Nodup := by
  intro l
  induction l with
  | nil => intro A P h; simpa using h
  | cons x rest ih =>
    intro A P h
    by_cases hx : isWait g x = true
    · have hstep : sink_step g (A, P) x =
          (A, if x ∈ P then P else P ++ [x]) := by simp [sink_step, hx]
      rw [List.foldl_cons, hstep]
      refine ih A _ ?_
      by_cases hmem : x ∈ P
      · simpa [hmem] using h
      · simp [List.nodup_append, h, hmem]
    · have hstep : sink_step g (A, P) x =
          ((A ++ (tuple_sorted P).filter (fun w => x ∈ usersOf g w)) ++ [x],
            P.filter (fun w => ¬ x ∈ usersOf g w)) := by simp [sink_step, hx]
      rw [List.foldl_cons, hstep]
      exact ih _ _ (List.Nodup.filter _ h)

theorem sink_fold_waits (g : Graph) :
    ∀ (W A P : List Nat), (∀ w ∈ W, isWait g w = true) →
      (∀ w ∈ W, w ∉ P) → W.Nodup →
      W.foldl (sink_step g) (A, P) = (A, P ++ W) := by
  intro W
  induction W with
  | nil => intro A P _ _ _; simp
  | cons x rest ih =>
    intro A P hW hP hnd
    have hx : isWait g x = true := hW x (by simp)
    have hxP : x ∉ P := hP x (by simp)
    have hstep : sink_step g (A, P) x = (A, P ++ [x]) := by
      simp [sink_step, hx, hxP]
    rw [List.foldl_cons, hstep,
      ih A (P ++ [x]) (fun w hw => hW w (by simp [hw])) ?notin
        (List.Nodup.sublist (by simp) hnd)]
    · simp
    case notin =>
      intro w hw
      simp only [List.mem_append, List.mem_singleton]
      push_neg
      refine ⟨hP w (by simp [hw]), ?_⟩
      intro hcon
      subst hcon
      exact ((List.nodup_cons.mp hnd).1 hw).elim

theorem sink_fold_block (g : Graph) {W : List Nat} {x : Nat} (A : List Nat)
    (hW : ∀ w ∈ W, isWait g w = true) (hnd : W.Nodup)
    (hsorted : W.Pairwise (fun a b => a ≤ b)) (hx : isWait g x = false)
    (huse : ∀ w ∈ W, x ∈ usersOf g w) :
    (W ++ [x]).foldl (sink_step g) (A, []) = ((A ++ W) ++ [x], []) := by
  rw [List.foldl_append,
    sink_fold_waits g W A [] hW (by simp) hnd]
  have hts : tuple_sorted ([] ++ W) = W := by
    simpa using tuple_sorted_of_sorted hsorted
  have hrelease : (tuple_sorted ([] ++ W)).filter
      (fun w => x ∈ usersOf g w) = W := by
    rw [hts, List.filter_eq_self]
    intro a ha
    simpa using huse a ha
  have hleft : ([] ++ W).filter (fun w => ¬ x ∈ usersOf g w) = [] := by
    rw [List.filter_eq_nil_iff]
    intro a ha
    simp only [List.nil_append] at ha
    simpa using huse a ha
  simp only [List.foldl_cons, List.foldl_nil, sink_step, hx,
    Bool.false_eq_true, if_false, hrelease, hleft]

theorem sink_replay (g : Graph) :
    ∀ (l P : List Nat), P.Nodup → (∀ w ∈ P, isWait g w = true) →
      ((l.foldl (sink_step g) ([], P)).1).foldl (sink_step g) ([], []) =
        ((l.foldl (sink_step g) ([], P)).1, []) := by
  intro l
  induction l with
  | nil => intro P _ _; simp
  | cons x rest ih =>
    intro P hnd hP
    by_cases hx : isWait g x = true
    · have hstep : sink_step g (([] : List Nat), P) x =
          ([], if x ∈ P then P else P ++ [x]) := by simp [sink_step, hx]
      rw [List.foldl_cons, hstep]
      refine ih _ ?_ ?_
      · by_cases hmem : x ∈ P
        · simpa [hmem] using hnd
        · simp [List.nodup_append, hnd, hmem]
      · by_cases hmem : x ∈ P
        · simpa [hmem] using hP
        · simp only [hmem, if_false]
          intro w hw
          rcases List.mem_append.mp hw with h | h
          · exact hP w h
          · have : w = x := by simpa using h
            subst this; exact hx
    · have hxf : isWait g x = false := by simpa using hx
      have hstep : sink_step g (([] : List Nat), P) x =
          ((tuple_sorted P).filter (fun w => x ∈ usersOf g w) ++ [x],
            P.filter (fun w => ¬ x ∈ usersOf g w)) := by
        simp [sink_step, hx]
      set R := (tuple_sorted P).filter (fun w => x ∈ usersOf g w) with hR
      set P2 := P.filter (fun w => ¬ x ∈ usersOf g w) with hP2
      have hRW : ∀ w ∈ R, isWait g w = true := by
        intro w hw
        exact hP w (mem_tuple_sorted.mp (List.mem_of_mem_filter hw))
      have hRnd : R.Nodup := List.Nodup.filter _ (tuple_sorted_nodup hnd)
      have hRsorted : R.Pairwise (fun a b => a ≤ b) :=
        List.Pairwise.filter _ (tuple_sorted_sorted P)
      have hRuse : ∀ w ∈ R, x ∈ usersOf g w := by
        intro w hw
        simpa using List.of_mem_filter hw
      rw [List.foldl_cons, hstep]
      rw [foldl_acc_split (sink_step g) (sink_step_acc g) rest (R ++ [x]) P2]
      have hinner := ih P2 (List.Nodup.filter _ hnd)
        (fun w hw => hP w (List.mem_of_mem_filter hw))
      rw [List.foldl_append]
      rw [sink_fold_block g [] hRW hRnd hRsorted hxf hRuse]
      simp only [List.nil_append]
      rw [foldl_acc_split (sink_step g) (sink_step_acc g) _ (R ++ [x]) []]
      rw [hinner]

/-- sink_waits is idempotent. -/
theorem sink_waits_idem (g : Graph) (l : List Nat) :
    sink_waits g (sink_waits g l) = sink_waits g l := by
  rw [sink_waits_eq g l]
  set N := (l.foldl (sink_step g) ([], [])).1 with hN
  set P := (l.foldl (sink_step g) ([], [])).2 with hP
  have hPnd : P.Nodup := sink_fold_pending_nodup g l [] [] (by simp)
  have hPW : ∀ w ∈ P, isWait g w = true :=
    (sink_fold_filter g l [] [] (by simp)).2
  have hTnd : (tuple_sorted P).Nodup := tuple_sorted_nodup hPnd
  have hTW : ∀ w ∈ tuple_sorted P, isWait g w = true := by
    intro w hw
    exact hPW w (mem_tuple_sorted.mp hw)
  rw [sink_waits_eq g (N ++ tuple_sorted P)]
  rw [List.foldl_append]
  have hNfold : N.foldl (sink_step g) (([] : List Nat), []) = (N, []) := by
    have := sink_replay g l [] (by simp) (by simp)
    rw [← hN] at this
    exact this
  rw [hNfold]
  rw [sink_fold_waits g (tuple_sorted P) N [] hTW (by simp) hTnd]
  simp only [List.nil_append]
  rw [tuple_sorted_idem]

theorem release_snd_no_trigger (g : Graph) (x : Nat) :
    ∀ Q : List Nat, ∀ cm ∈ (release g x Q).2, ¬ x ∈ argsOf g cm := by
  intro Q
  induction Q with
  | nil => intro cm hcm; simp [release] at hcm
  | cons c rest ih =>
    by_cases hany : (c :: rest).any (fun cm => x ∈ argsOf g cm) = true
    · intro cm hcm
      simp only [release, hany, if_true] at hcm
      exact ih cm hcm
    · intro cm hcm
      have hrem : (release g x (c :: rest)).2 = c :: rest := by
        simp [release, hany]
      rw [hrem] at hcm
      intro hmem
      exact hany (List.any_eq_true.mpr ⟨cm, hcm, by simpa using hmem⟩)

theorem release_rel_again (g : Graph) (x : Nat) :
    ∀ Q : List Nat, release g x (release g x Q).1 = ((release g x Q).1, []) := by
  intro Q
  induction Q with
  | nil => simp [release]
  | cons c rest ih =>
    by_cases hany : (c :: rest).any (fun cm => x ∈ argsOf g cm) = true
    · have hfst : (release g x (c :: rest)).1 = c :: (release g x rest).1 := by
        simp [release, hany]
      rw [hfst]
      have hany2 : (c :: (release g x rest).1).any
          (fun cm => x ∈ argsOf g cm) = true := by
        rcases List.any_eq_true.mp hany with ⟨cm, hcm, hx⟩
        rcases List.mem_cons.mp hcm with h | h
        · subst h
          exact List.any_eq_true.mpr ⟨cm, by simp, hx⟩
        · have hsplit := release_append g x rest
          have : cm ∈ (release g x rest).1 ∨ cm ∈ (release g x rest).2 := by
            rw [← List.mem_append, hsplit]
            exact h
          rcases this with h2 | h2
          · exact List.any_eq_true.mpr ⟨cm, by simp [h2], hx⟩
          · exact absurd (by simpa using hx)
              (by simpa using release_snd_no_trigger g x rest cm h2)
      simp only [release, hany2, if_true, ih]
    · simp [release, hany]

theorem raise_fold_comms (g : Graph) :
    ∀ (C A Q : List Nat), (∀ c ∈ C, isComm g c = true) →
      C.foldl (raise_step g) (A, Q) = (A, Q ++ C) := by
  intro C
  induction C with
  | nil => intro A Q _; simp
  | cons c rest ih =>
    intro A Q h
    have hc : isComm g c = true := h c (by simp)
    have hstep : raise_step g (A, Q) c = (A, Q ++ [c]) := by
      simp [raise_step, hc]
    rw [List.foldl_cons, hstep, ih A (Q ++ [c]) (fun d hd => h d (by simp [hd]))]
    simp

theorem raise_fold_block (g : Graph) {rel : List Nat} {x : Nat}
    (A : List Nat) (hrel : ∀ c ∈ rel, isComm g c = true)
    (hx : isComm g x = false)
    (hpop : release g x rel = (rel, [])) :
    (rel ++ [x]).foldl (raise_step g) (A, []) = ((A ++ rel) ++ [x], []) := by
  rw [List.foldl_append, raise_fold_comms g rel A [] hrel]
  simp only [List.nil_append, List.foldl_cons, List.foldl_nil, raise_step,
    hx, Bool.false_eq_true, if_false, hpop]

theorem raise_replay (g : Graph) :
    ∀ (rl Q : List Nat), (∀ c ∈ Q, isComm g c = true) →
      ((rl.foldl (raise_step g) ([], Q)).1).foldl (raise_step g) ([], []) =
        ((rl.foldl (raise_step g) ([], Q)).1, []) := by
  intro rl
  induction rl with
  | nil => intro Q _; simp
  | cons x rest ih =>
    intro Q hQ
    by_cases hx : isComm g x = true
    · have hstep : raise_step g (([] : List Nat), Q) x = ([], Q ++ [x]) := by
        simp [raise_step, hx]
      rw [List.foldl_cons, hstep]
      refine ih (Q ++ [x]) ?_
      intro c hc
      rcases List.mem_append.mp hc with h | h
      · exact hQ c h
      · have : c = x := by simpa using h
        subst this; exact hx
    · have hxf : isComm g x = false := by simpa using hx
      have hstep : raise_step g (([] : List Nat), Q) x =
          ((release g x Q).1 ++ [x], (release g x Q).2) := by
        simp [raise_step, hx]
      set rel := (release g x Q).1 with hrel
      set rem := (release g x Q).2 with hrem
      have hrelcomm : ∀ c ∈ rel, isComm g c = true :=
        fun c hc => hQ c (release_fst_subset c hc)
      have hremcomm : ∀ c ∈ rem, isComm g c = true :=
        fun c hc => hQ c (release_snd_subset c hc)
      have hpop : release g x rel = (rel, []) := release_rel_again g x Q
      rw [List.foldl_cons, hstep]
      rw [foldl_acc_split (raise_step g) (raise_step_acc g) rest
        (rel ++ [x]) rem]
      rw [List.foldl_append]
      rw [raise_fold_block g [] hrelcomm hxf hpop]
      simp only [List.nil_append]
      rw [foldl_acc_split (raise_step g) (raise_step_acc g) _ (rel ++ [x]) []]
      rw [ih rem hremcomm]

/-- raise_comms is idempotent on the sequences it accepts. -/
theorem raise_comms_idem {g : Graph} {l out : List Nat}
    (h : raise_comms g l = some out) : raise_comms g out = some out := by
  rw [raise_comms_eq] at h
  by_cases hlen : (l.reverse.foldl (raise_step g) ([], [])).2.length ≤ 1
  · rw [if_pos hlen] at h
    have hout := Option.some.inj h
    set A := (l.reverse.foldl (raise_step g) ([], [])).1 with hA
    set Q := (l.reverse.foldl (raise_step g) ([], [])).2 with hQ
    have hQcomm : ∀ c ∈ Q, isComm g c = true :=
      (raise_fold_frame g l.reverse [] [] (by simp)).2.2
    have hts : tuple_sorted Q = Q := tuple_sorted_len_le_one hlen
    have hrev : out.reverse = A ++ Q := by
      rw [← hout, hts]
      simp
    have hAfold : A.foldl (raise_step g) (([] : List Nat), []) = (A, []) := by
      have := raise_replay g l.reverse [] (by simp)
      rw [← hA] at this
      exact this
    have hfold2 : out.reverse.foldl (raise_step g) ([], []) = (A, Q) := by
      rw [hrev, List.foldl_append, hAfold, raise_fold_comms g Q A [] hQcomm]
      simp
    rw [raise_comms_eq, hfold2]
    rw [if_pos (by simpa using hlen)]
    rw [hts, ← hrev]
    simp
  · rw [if_neg hlen] at h
    exact absurd h (by simp)

/-! ### Dictionary and add_node characterization -/

theorem dictDec_keys (m : List (Nat × Int)) (k : Nat) :
    (dictDec m k).map Prod.fst = m.map Prod.fst := by
  unfold dictDec
  rw [List.map_map]
  refine List.map_congr_left ?_
  intro p _
  by_cases h : p.1 = k <;> simp [h]

theorem dictHas_iff_keys (m : List (Nat × Int)) (u : Nat) :
    dictHas m u = true ↔ u ∈ m.map Prod.fst := by
  induction m with
  | nil => simp [dictHas]
  | cons p rest ih =>
    by_cases h : p.1 = u
    · simp [dictHas, List.find?_cons, h]
    · have hb : (p.1 == u) = false := by simpa using h
      simp only [dictHas, List.find?_cons, hb, List.map_cons, List.mem_cons]
      rw [← dictHas]
      rw [ih]
      constructor
      · intro hm; exact Or.inr hm
      · rintro (hm | hm)
        · exact absurd hm.symm h
        · exact hm

theorem dictDec_absent (m : List (Nat × Int)) (k : Nat)
    (h : dictHas m k = false) : dictDec m k = m := by
  unfold dictDec
  refine List.map_congr_left ?thm |>.trans (List.map_id m)
  intro p hp
  have hk : p.1 ≠ k := by
    intro hc
    have : k ∈ m.map Prod.fst := by
      refine List.mem_map.mpr ⟨p, hp, hc⟩
    rw [← dictHas_iff_keys] at this
    rw [h] at this
    exact absurd this (by simp)
  simp [hk]

theorem dictGet_cons_eq {p : Nat × Int} {rest : List (Nat × Int)} {u : Nat}
    (h : p.1 = u) : dictGet (p :: rest) u = p.2 := by
  simp [dictGet, List.find?_cons, h]

theorem dictGet_cons_ne {p : Nat × Int} {rest : List (Nat × Int)} {u : Nat}
    (h : p.1 ≠ u) : dictGet (p :: rest) u = dictGet rest u := by
  have hb : (p.1 == u) = false := by simpa using h
  simp [dictGet, List.find?_cons, hb]

theorem dictDec_cons (p : Nat × Int) (rest : List (Nat × Int)) (k : Nat) :
    dictDec (p :: rest) k =
      (if p.1 = k then (p.1, p.2 - 1) else p) :: dictDec rest k := by
  by_cases h : p.1 = k
  · simp [dictDec, h]
  · have hb : (p.1 == k) = false := by simpa using h
    simp [dictDec, hb, h]

theorem dictGet_dictDec_ne (m : List (Nat × Int)) (k u : Nat) (h : u ≠ k) :
    dictGet (dictDec m k) u = dictGet m u := by
  induction m with
  | nil => rfl
  | cons p rest ih =>
    rw [dictDec_cons]
    by_cases hpk : p.1 = k
    · rw [if_pos hpk]
      have hpu : p.1 ≠ u := by rw [hpk]; exact fun hc => h hc.symm
      rw [@dictGet_cons_ne (p.1, p.2 - 1) (dictDec rest k) u hpu,
        dictGet_cons_ne hpu]
      exact ih
    · rw [if_neg hpk]
      by_cases hpu : p.1 = u
      · rw [dictGet_cons_eq hpu, dictGet_cons_eq hpu]
      · rw [dictGet_cons_ne hpu, dictGet_cons_ne hpu]
        exact ih

theorem dictGet_dictDec_self (m : List (Nat × Int)) (k : Nat)
    (h : dictHas m k = true) : dictGet (dictDec m k) k = dictGet m k - 1 := by
  induction m with
  | nil => simp [dictHas] at h
  | cons p rest ih =>
    rw [dictDec_cons]
    by_cases hpk : p.1 = k
    · rw [if_pos hpk]
      rw [@dictGet_cons_eq (p.1, p.2 - 1) (dictDec rest k) k hpk,
        dictGet_cons_eq hpk]
    · rw [if_neg hpk]
      rw [dictGet_cons_ne hpk, dictGet_cons_ne hpk]
      refine ih ?_
      have hb : (p.1 == k) = false := by simpa using hpk
      simpa [dictHas, List.find?_cons, hb] using h

theorem usersOf_nodup {g : Graph} (hW : WFGraph g) (n : Nat) :
    (usersOf g n).Nodup := by
  have hsub : ((g.filter (fun m => n ∈ m.args)).map (fun x => x.id)).Sublist
      (g.map (fun x => x.id)) :=
    List.Sublist.map _ (List.filter_sublist g)
  exact List.Nodup.sublist hsub hW

theorem add_node_user_char (s : SchedState) (u : Nat) :
    add_node_user s u =
      { indeg := dictDec s.indeg u,
        free := s.free ++
          (if dictHas s.indeg u = true ∧ dictGet s.indeg u = 1 ∧
              ¬ u ∈ s.free then [u] else []),
        unused := s.unused,
        result := s.result } := by
  unfold add_node_user
  by_cases hhas : dictHas s.indeg u = true
  · rw [if_pos hhas]
    have hget : dictGet (dictDec s.indeg u) u = dictGet s.indeg u - 1 :=
      dictGet_dictDec_self s.indeg u hhas
    by_cases hzero : dictGet (dictDec s.indeg u) u = 0
    · rw [if_pos hzero]
      have h1 : dictGet s.indeg u = 1 := by
        rw [hget] at hzero
        omega
      by_cases hmem : u ∈ s.free
      · simp [hmem, hhas, h1]
      · simp [hmem, hhas, h1]
    · rw [if_neg hzero]
      have h1 : dictGet s.indeg u ≠ 1 := by
        rw [hget] at hzero
        omega
      simp [hhas, h1]
  · rw [if_neg hhas]
    have : dictHas s.indeg u = false := by simpa using hhas
    rw [dictDec_absent s.indeg u this]
    simp [hhas]

theorem add_node_fold_char :
    ∀ (us : List Nat) (s : SchedState), us.Nodup →
      us.foldl add_node_user s =
        { indeg := s.indeg.map
            (fun p => if p.1 ∈ us then (p.1, p.2 - 1) else p),
          free := s.free ++ us.filter
            (fun u => decide (dictHas s.indeg u = true ∧
              dictGet s.indeg u = 1 ∧ ¬ u ∈ s.free)),
          unused := s.unused,
          result := s.result } := by
  intro us
  induction us with
  | nil =>
    intro s _
    simp only [List.foldl_nil, List.filter_nil, List.append_nil]
    have : s.indeg.map (fun p => if p.1 ∈ ([] : List Nat) then (p.1, p.2 - 1)
        else p) = s.indeg := by
      refine (List.map_congr_left ?_).trans (List.map_id s.indeg)
      intro p _; simp
    rw [this]
  | cons u0 us ih =>
    intro s hnd
    have hu0 : u0 ∉ us := (List.nodup_cons.mp hnd).1
    rw [List.foldl_cons, add_node_user_char s u0,
      ih _ (List.nodup_cons.mp hnd).2]
    simp only [SchedState.mk.injEq]
    refine ⟨?_, ?_, trivial, trivial⟩
    · have hdec : dictDec s.indeg u0 =
          s.indeg.map (fun p => if p.1 == u0 then (p.1, p.2 - 1) else p) := rfl
      rw [hdec, List.map_map]
      refine List.map_congr_left ?_
      intro p _
      by_cases h1 : p.1 = u0
      · have hb : (p.1 == u0) = true := by simpa using h1
        simp [hb, h1, hu0, Function.comp]
      · have hb : (p.1 == u0) = false := by simpa using h1
        by_cases h2 : p.1 ∈ us
        · simp [hb, h1, h2, Function.comp]
        · simp [hb, h1, h2, Function.comp]
    · have hite : ∀ u ∈ us,
          (decide (dictHas (dictDec s.indeg u0) u = true ∧
            dictGet (dictDec s.indeg u0) u = 1 ∧
            ¬ u ∈ s.free ++
              (if dictHas s.indeg u0 = true ∧ dictGet s.indeg u0 = 1 ∧
                ¬ u0 ∈ s.free then [u0] else []))) =
          (decide (dictHas s.indeg u = true ∧
            dictGet s.indeg u = 1 ∧ ¬ u ∈ s.free)) := by
        intro u hu
        have hne : u ≠ u0 := fun hc => hu0 (hc ▸ hu)
        refine decide_eq_decide.mpr ?_
        have h1 : (dictHas (dictDec s.indeg u0) u = true) ↔
            (dictHas s.indeg u = true) := by
          rw [dictHas_iff_keys, dictHas_iff_keys, dictDec_keys]
        have h2 : dictGet (dictDec s.indeg u0) u = dictGet s.indeg u :=
          dictGet_dictDec_ne _ _ _ hne
        have h3 : (u ∈ s.free ++
            (if dictHas s.indeg u0 = true ∧ dictGet s.indeg u0 = 1 ∧
              ¬ u0 ∈ s.free then [u0] else [])) ↔ u ∈ s.free := by
          by_cases hc : dictHas s.indeg u0 = true ∧ dictGet s.indeg u0 = 1 ∧
              ¬ u0 ∈ s.free
          · rw [if_pos hc]
            simp only [List.mem_append, List.mem_singleton]
            constructor
            · rintro (h | h)
              · exact h
              · exact absurd h hne
            · exact fun h => Or.inl h
          · rw [if_neg hc]
            simp
        rw [h2]
        constructor
        · rintro ⟨a, b, c⟩
          exact ⟨h1.mp a, b, fun hc => c (h3.mpr hc)⟩
        · rintro ⟨a, b, c⟩
          exact ⟨h1.mpr a, b, fun hc => c (h3.mp hc)⟩
      rw [List.filter_congr hite, List.filter_cons]
      by_cases hc : dictHas s.indeg u0 = true ∧ dictGet s.indeg u0 = 1 ∧
          ¬ u0 ∈ s.free
      · rw [if_pos hc, if_pos (by simpa using hc)]
        simp
      · rw [if_neg hc, if_neg (by simpa using hc)]
        simp

theorem dictHas_cons_eq {p : Nat × Int} {rest : List (Nat × Int)} {u : Nat}
    (h : p.1 = u) : dictHas (p :: rest) u = true := by
  simp [dictHas, List.find?_cons, h]

theorem dictHas_cons_ne {p : Nat × Int} {rest : List (Nat × Int)} {u : Nat}
    (h : p.1 ≠ u) : dictHas (p :: rest) u = dictHas rest u := by
  have hb : (p.1 == u) = false := by simpa using h
  simp [dictHas, List.find?_cons, hb]

theorem dictGet_mapDec (m : List (Nat × Int)) (us : List Nat) (u : Nat) :
    dictGet (m.map (fun p => if p.1 ∈ us then (p.1, p.2 - 1) else p)) u =
      if u ∈ us ∧ dictHas m u = true then dictGet m u - 1
      else dictGet m u := by
  induction m with
  | nil =>
    simp only [List.map_nil]
    by_cases h : u ∈ us ∧ dictHas ([] : List (Nat × Int)) u = true
    · simp [dictHas] at h
    · rw [if_neg h]
  | cons p rest ih =>
    rw [List.map_cons]
    by_cases hp : p.1 = u
    · have hhas : dictHas (p :: rest) u = true := dictHas_cons_eq hp
      by_cases hm : p.1 ∈ us
      · rw [if_pos hm]
        rw [@dictGet_cons_eq (p.1, p.2 - 1)
            (rest.map (fun p => if p.1 ∈ us then (p.1, p.2 - 1) else p)) u hp,
          dictGet_cons_eq hp, if_pos ⟨hp ▸ hm, hhas⟩]
      · rw [if_neg hm]
        rw [dictGet_cons_eq hp, dictGet_cons_eq hp,
          if_neg (fun hc => hm (hp ▸ hc.1))]
    · have hkey : (if p.1 ∈ us then (p.1, p.2 - 1) else p).1 = p.1 := by
        by_cases hm : p.1 ∈ us <;> simp [hm]
      rw [show (if p.1 ∈ us then (p.1, p.2 - 1) else p) :: rest.map
          (fun p => if p.1 ∈ us then (p.1, p.2 - 1) else p) =
          (if p.1 ∈ us then (p.1, p.2 - 1) else p) :: rest.map
          (fun p => if p.1 ∈ us then (p.1, p.2 - 1) else p) from rfl]
      rw [dictGet_cons_ne (by rw [hkey]; exact hp), dictGet_cons_ne hp,
        dictHas_cons_ne hp]
      exact ih

theorem filter_length_perm_erase {l : List Nat} {a : Nat} (ha : a ∈ l)
    (p : Nat → Bool) :
    (l.filter p).length =
      (if p a = true then 1 else 0) + ((l.erase a).filter p).length := by
  have hp := (List.perm_cons_erase ha).filter p
  rw [hp.length_eq, List.filter_cons]
  by_cases h : p a = true
  · rw [if_pos h, if_pos h]; simp only [List.length_cons]; omega
  · rw [if_neg h, if_neg h]; simp

theorem add_node_char {g : Graph} {st st' : SchedState} {n : Nat}
    (hW : WFGraph g) (h : add_node g st n = some st') :
    n ∈ st.unused ∧ n ∈ st.free ∧
      st' =
        { indeg := st.indeg.map
            (fun p => if p.1 ∈ usersOf g n then (p.1, p.2 - 1) else p),
          free := st.free.erase n ++ (usersOf g n).filter
            (fun u => decide (dictHas st.indeg u = true ∧
              dictGet st.indeg u = 1 ∧ ¬ u ∈ st.free.erase n)),
          unused := st.unused.erase n,
          result := st.result ++ [n] } := by
  unfold add_node at h
  by_cases hg : n ∈ st.unused ∧ n ∈ st.free
  · rw [if_pos hg] at h
    refine ⟨hg.1, hg.2, ?_⟩
    have hs := Option.some.inj h
    rw [← hs, add_node_fold_char (usersOf g n) _ (usersOf_nodup hW n)]
  · rw [if_neg hg] at h
    exact absurd h (by simp)

theorem schedInv_add_node {g : Graph} {L : List Nat} {st st' : SchedState}
    {n : Nat} (hW : WFGraph g) (hnd : L.Nodup) (hSL : NoSelfLoop g L)
    (h : add_node g st n = some st') (hInv : SchedInv g L st) :
    SchedInv g L st' := by
  obtain ⟨hnu, hnf, hst⟩ := add_node_char hW h
  have hresun : (st.result ++ st.unused).Nodup := hInv.perm.nodup_iff.mpr hnd
  have hrnd : st.result.Nodup := (List.nodup_append.mp hresun).1
  have hund : st.unused.Nodup := (List.nodup_append.mp hresun).2.1
  have hdisj : ∀ x ∈ st.result, x ∉ st.unused :=
    (List.nodup_append.mp hresun).2.2
  have hnL : n ∈ L := hInv.perm.mem_iff.mp (List.mem_append.mpr (Or.inr hnu))
  have hnUS : n ∉ usersOf g n := fun hc => hSL n hnL hc
  have husnd := usersOf_nodup hW n
  have hget0 : dictGet st.indeg n = 0 := ((hInv.freeIff n).mp hnf).2
  have hhasL : ∀ u, dictHas st.indeg u = true ↔ u ∈ L := by
    intro u; rw [dictHas_iff_keys, hInv.keys]
  have hLmem : ∀ u, u ∈ st.unused → u ∈ L := fun u hu =>
    hInv.perm.mem_iff.mp (List.mem_append.mpr (Or.inr hu))
  have hgetpos : ∀ u ∈ L, u ∈ usersOf g n →
      1 ≤ dictGet st.indeg u := by
    intro u huL hus
    rw [hInv.cnt u huL]
    have hlen := filter_length_perm_erase hnu
      (fun p => decide (u ∈ usersOf g p))
    rw [if_pos (by simpa using hus)] at hlen
    have : 1 ≤ (st.unused.filter (fun p => decide (u ∈ usersOf g p))).length := by
      omega
    exact_mod_cast this
  have hmemresult : ∀ p ∈ L, Edge g p n → p ∈ st.result := by
    intro p hp hedge
    have hcount : (st.unused.filter
        (fun q => decide (n ∈ usersOf g q))).length = 0 := by
      have := hInv.cnt n hnL
      rw [hget0] at this
      exact_mod_cast this.symm
    have hpnun : p ∉ st.unused := by
      intro hc
      have : p ∈ st.unused.filter (fun q => decide (n ∈ usersOf g q)) := by
        rw [List.mem_filter]
        exact ⟨hc, by simpa [Edge] using hedge⟩
      rw [List.length_eq_zero.mp hcount] at this
      exact absurd this (by simp)
    rcases List.mem_append.mp (hInv.perm.mem_iff.mpr hp) with h1 | h1
    · exact h1
    · exact absurd h1 hpnun
  subst hst
  refine ⟨?_, ?_, ?_, ?_, ?_, ?_⟩
  · rw [List.map_map]
    rw [show (Prod.fst ∘ fun p : Nat × Int =>
        if p.1 ∈ usersOf g n then (p.1, p.2 - 1) else p) = Prod.fst from ?_]
    · exact hInv.keys
    · funext p
      by_cases hm : p.1 ∈ usersOf g n <;> simp [hm, Function.comp]
  · intro u huL
    rw [dictGet_mapDec]
    have hhas : dictHas st.indeg u = true := (hhasL u).mpr huL
    by_cases hus : u ∈ usersOf g n
    · rw [if_pos ⟨hus, hhas⟩, hInv.cnt u huL]
      have hlen := filter_length_perm_erase hnu
        (fun p => decide (u ∈ usersOf g p))
      rw [if_pos (by simpa using hus)] at hlen
      rw [hlen]
      push_cast
      ring
    · rw [if_neg (fun hc => hus hc.1), hInv.cnt u huL]
      have hlen := filter_length_perm_erase hnu
        (fun p => decide (u ∈ usersOf g p))
      rw [if_neg (by simpa using hus)] at hlen
      rw [hlen]
      simp
  · intro u
    rw [dictGet_mapDec]
    constructor
    · intro hu
      rcases List.mem_append.mp hu with h1 | h1
      · have huf : u ∈ st.free := List.mem_of_mem_erase h1
        have hune : u ≠ n := by
          intro hc
          subst hc
          exact (List.Nodup.not_mem_erase hInv.freeNd) h1
        obtain ⟨huun, hug0⟩ := (hInv.freeIff u).mp huf
        have husneg : u ∉ usersOf g n := by
          intro hc
          have := hgetpos u (hLmem u huun) hc
          omega
        rw [if_neg (fun hc => husneg hc.1)]
        exact ⟨(List.mem_erase_of_ne hune).mpr huun, hug0⟩
      · rw [List.mem_filter] at h1
        obtain ⟨hus, hcond⟩ := h1
        rw [decide_eq_true_eq] at hcond
        obtain ⟨hhas, hg1, hnfree⟩ := hcond
        have huL : u ∈ L := (hhasL u).mp hhas
        have hune : u ≠ n := by
          intro hc
          subst hc
          exact hnUS hus
        have huun : u ∈ st.unused := by
          by_contra hc
          have hures : u ∈ st.result := by
            rcases List.mem_append.mp (hInv.perm.mem_iff.mpr huL) with h2 | h2
            · exact h2
            · exact absurd h2 hc
          obtain ⟨s1, s2, hsp⟩ := List.append_of_mem hures
          have := hInv.prec s1 u s2 hsp n hnL (by simpa [Edge] using hus)
          have hnres : n ∈ st.result := by rw [hsp]; simp [this]
          exact (hdisj n hnres) hnu
        rw [if_pos ⟨hus, hhas⟩]
        refine ⟨(List.mem_erase_of_ne hune).mpr huun, by omega⟩
    · rintro ⟨huun, hug⟩
      have hune : u ≠ n := by
        intro hc
        subst hc
        exact (List.Nodup.not_mem_erase hund) huun
      have huun2 : u ∈ st.unused := List.mem_of_mem_erase huun
      have huL : u ∈ L := hLmem u huun2
      have hhas : dictHas st.indeg u = true := (hhasL u).mpr huL
      by_cases hus : u ∈ usersOf g n
      · rw [if_pos ⟨hus, hhas⟩] at hug
        have hg1 : dictGet st.indeg u = 1 := by omega
        have hnfree : u ∉ st.free := by
          intro hc
          have := ((hInv.freeIff u).mp hc).2
          omega
        refine List.mem_append.mpr (Or.inr ?_)
        rw [List.mem_filter]
        refine ⟨hus, ?_⟩
        rw [decide_eq_true_eq]
        exact ⟨hhas, hg1, fun hc => hnfree (List.mem_of_mem_erase hc)⟩
      · rw [if_neg (fun hc => hus hc.1)] at hug
        refine List.mem_append.mpr (Or.inl ?_)
        rw [List.mem_erase_of_ne hune]
        exact (hInv.freeIff u).mpr ⟨huun2, hug⟩
  · rw [List.nodup_append]
    refine ⟨hInv.freeNd.erase n, husnd.filter _, ?_⟩
    intro a ha hb
    rw [List.mem_filter] at hb
    have := hb.2
    rw [decide_eq_true_eq] at this
    exact this.2.2 ha
  · have h1 : st.unused.Perm (n :: st.unused.erase n) :=
      List.perm_cons_erase hnu
    have h2 : (st.result ++ [n]) ++ st.unused.erase n =
        st.result ++ (n :: st.unused.erase n) := by simp
    rw [h2]
    exact ((h1.symm.append_left st.result)).trans hInv.perm
  · intro s1 v s2 hsplit p hp hedge
    rcases append_cons_split hsplit with ⟨t, hr, _⟩ | ⟨t, hs1, hrest⟩
    · exact hInv.prec s1 v t hr p hp hedge
    · cases t with
      | nil =>
        simp only [List.nil_append, List.cons.injEq] at hrest
        obtain ⟨hvn, _⟩ := hrest
        simp only [List.append_nil] at hs1
        rw [hs1]
        subst hvn
        exact hmemresult p hp hedge
      | cons a t2 =>
        simp only [List.cons_append, List.cons.injEq] at hrest
        exact absurd hrest.2.symm (by simp)

/-! ### Every state change of the scheduler goes through add_node -/

theorem schedSteps_trans {g : Graph} {a b c : SchedState}
    (h1 : SchedSteps g a b) (h2 : SchedSteps g b c) : SchedSteps g a c := by
  induction h1 with
  | refl _ => exact h2
  | step ha _ ih => exact SchedSteps.step ha (ih h2)

theorem schedInv_steps {g : Graph} {L : List Nat} {a b : SchedState}
    (hW : WFGraph g) (hnd : L.Nodup) (hSL : NoSelfLoop g L)
    (h : SchedSteps g a b) (hInv : SchedInv g L a) : SchedInv g L b := by
  induction h with
  | refl _ => exact hInv
  | step ha _ ih => exact ih (schedInv_add_node hW hnd hSL ha hInv)

theorem add_all_pass_cons_free {g : Graph} {n : Nat} {rest : List Nat}
    {st : SchedState} {rem : List Nat} (hf : n ∈ st.free) :
    add_all_pass g (n :: rest) st rem =
      (add_node g st n).bind
        (fun st2 => add_all_pass g rest st2 (rem.erase n)) := by
  simp [add_all_pass, hf]

theorem add_all_pass_cons_notfree {g : Graph} {n : Nat} {rest : List Nat}
    {st : SchedState} {rem : List Nat} (hf : ¬ n ∈ st.free) :
    add_all_pass g (n :: rest) st rem = add_all_pass g rest st rem := by
  simp [add_all_pass, hf]

theorem add_all_pass_steps (g : Graph) :
    ∀ (sorted : List Nat) (st : SchedState) (rem : List Nat)
      (st2 : SchedState) (rem2 : List Nat),
      add_all_pass g sorted st rem = some (st2, rem2) → SchedSteps g st st2 := by
  intro sorted
  induction sorted with
  | nil =>
    intro st rem st2 rem2 h
    simp only [add_all_pass, Option.some.injEq, Prod.mk.injEq] at h
    rw [← h.1]
    exact SchedSteps.refl st
  | cons n rest ih =>
    intro st rem st2 rem2 h
    by_cases hf : n ∈ st.free
    · rw [add_all_pass_cons_free hf] at h
      rcases Option.bind_eq_some.mp h with ⟨st1, hadd, hrest⟩
      exact SchedSteps.step hadd (ih st1 (rem.erase n) st2 rem2 hrest)
    · rw [add_all_pass_cons_notfree hf] at h
      exact ih st rem st2 rem2 h

theorem add_all_loop_steps (g : Graph) :
    ∀ (fuel : Nat) (st : SchedState) (all : List Nat) (st2 : SchedState),
      add_all_loop g fuel st all = some st2 → SchedSteps g st st2 := by
  intro fuel
  induction fuel with
  | zero =>
    intro st all st2 h
    simp only [add_all_loop] at h
    by_cases he : all.isEmpty
    · rw [if_pos he] at h
      rw [← Option.some.inj h]
      exact SchedSteps.refl st
    · rw [if_neg he] at h
      exact absurd h (by simp)
  | succ fuel ih =>
    intro st all st2 h
    simp only [add_all_loop] at h
    by_cases he : all.isEmpty
    · rw [if_pos he] at h
      rw [← Option.some.inj h]
      exact SchedSteps.refl st
    · rw [if_neg he] at h
      rcases Option.bind_eq_some.mp h with ⟨⟨stm, remm⟩, hpass, hloop⟩
      exact schedSteps_trans
        (add_all_pass_steps g (tuple_sorted all) st all stm remm hpass)
        (ih stm remm st2 hloop)

theorem add_all_nodes_steps {g : Graph} {fuel : Nat} {st : SchedState}
    {nodes : List Nat} {st2 : SchedState}
    (h : add_all_nodes g fuel st nodes = some st2) : SchedSteps g st st2 := by
  unfold add_all_nodes at h
  by_cases ha : (mkSet nodes).all (fun n => n ∈ st.unused) = true
  · rw [if_pos ha] at h
    exact add_all_loop_steps g fuel st (mkSet nodes) st2 h
  · rw [if_neg (by simpa using ha)] at h
    exact absurd h (by simp)

theorem priority2_loop_steps (g : Graph) (comm_cost : Nat) :
    ∀ (cands : List Nat) (st : SchedState) (total : Nat)
      (st2 : SchedState) (total2 : Nat),
      priority2_loop g comm_cost cands st total = some (st2, total2) →
        SchedSteps g st st2 := by
  intro cands
  induction cands with
  | nil =>
    intro st total st2 total2 h
    simp only [priority2_loop, Option.some.injEq, Prod.mk.injEq] at h
    rw [← h.1]
    exact SchedSteps.refl st
  | cons n rest ih =>
    intro st total st2 total2 h
    simp only [priority2_loop] at h
    by_cases h1 : total ≥ comm_cost
    · rw [if_pos h1] at h
      simp only [Option.some.injEq, Prod.mk.injEq] at h
      rw [← h.1]
      exact SchedSteps.refl st
    · rw [if_neg h1] at h
      by_cases h2 : isComm g n = true
      · rw [if_pos h2] at h
        exact ih st total st2 total2 h
      · rw [if_neg h2] at h
        by_cases h3 : 2 * (comm_cost - total) ≤ costOf g n
        · rw [if_pos h3] at h
          exact ih st total st2 total2 h
        · rw [if_neg h3] at h
          rcases Option.bind_eq_some.mp h with ⟨st1, hadd, hrest⟩
          exact SchedSteps.step hadd
            (ih st1 (total + costOf g n) st2 total2 hrest)

theorem priority2_step_steps {g : Graph} {comms : List Nat} {prev : Nat}
    {comm_cost : Nat} {st : SchedState} {total : Nat} {st2 : SchedState}
    {total2 : Nat}
    (h : priority2_step g comms prev comm_cost st total = some (st2, total2)) :
    SchedSteps g st st2 := by
  unfold priority2_step at h
  by_cases h1 : total ≥ comm_cost
  · rw [if_pos h1] at h
    simp only [Option.some.injEq, Prod.mk.injEq] at h
    rw [← h.1]
    exact SchedSteps.refl st
  · rw [if_neg h1] at h
    exact priority2_loop_steps g comm_cost _ st total st2 total2 h

theorem smart_loop_steps (g : Graph) (comms : List Nat) (fuel : Nat) :
    ∀ (pend : List Nat) (prev rolled : Nat) (st st2 : SchedState),
      smart_loop g comms fuel pend prev rolled st = some st2 →
        SchedSteps g st st2 := by
  intro pend
  induction pend with
  | nil =>
    intro prev rolled st st2 h
    simp only [smart_loop, Option.some.injEq] at h
    rw [← h]
    exact SchedSteps.refl st
  | cons next rest ih =>
    intro prev rolled st st2 h
    simp only [smart_loop] at h
    rcases Option.bind_eq_some.mp h with ⟨st1, hadd1, h⟩
    rcases Option.bind_eq_some.mp h with ⟨⟨stp, totp⟩, hp2, h⟩
    rcases Option.bind_eq_some.mp h with ⟨st3, hadd3, h⟩
    refine schedSteps_trans (add_all_nodes_steps hadd1) ?_
    refine schedSteps_trans (priority2_step_steps hp2) ?_
    refine schedSteps_trans (add_all_nodes_steps hadd3) ?_
    exact ih next _ st3 st2 h

/-! ### Initial state invariant and exhaustion of the unused set -/

theorem dictGet_map_pair (f : Nat → Int) :
    ∀ (L : List Nat) (u : Nat), u ∈ L →
      dictGet (L.map (fun v => (v, f v))) u = f u := by
  intro L
  induction L with
  | nil => intro u hu; simp at hu
  | cons x rest ih =>
    intro u hu
    by_cases hx : x = u
    · rw [List.map_cons, dictGet_cons_eq (by simpa using hx), hx]
    · rw [List.map_cons, dictGet_cons_ne (by simpa using hx)]
      rcases List.mem_cons.mp hu with h | h
      · exact absurd h.symm hx
      · exact ih u h

theorem count_flatten_eq_filter {g : Graph} (hW : WFGraph g) :
    ∀ (L : List Nat) (u : Nat),
      ((L.map (usersOf g)).flatten.count u) =
        (L.filter (fun p => decide (u ∈ usersOf g p))).length := by
  intro L
  induction L with
  | nil => intro u; simp
  | cons x rest ih =>
    intro u
    rw [List.map_cons, List.flatten_cons, List.count_append, ih u,
      List.filter_cons]
    by_cases hm : u ∈ usersOf g x
    · rw [List.count_eq_one_of_mem (usersOf_nodup hW x) hm,
        if_pos (by simpa using hm)]
      simp only [List.length_cons]
      omega
    · rw [List.count_eq_zero_of_not_mem hm, if_neg (by simpa using hm)]
      omega

theorem initState_inv {g : Graph} {L : List Nat} (hW : WFGraph g)
    (hnd : L.Nodup) : SchedInv g L (initState g L) := by
  have hkeys : (initState g L).indeg.map Prod.fst = L := by
    unfold initState
    rw [List.map_map]
    exact (List.map_congr_left (fun a _ => rfl)).trans (List.map_id L)
  have hget : ∀ u ∈ L, dictGet (initState g L).indeg u =
      (((L.map (usersOf g)).flatten.count u : Nat) : Int) := by
    intro u hu
    unfold initState
    exact dictGet_map_pair _ L u hu
  have hunused : (initState g L).unused = L := mkSet_of_nodup hnd
  refine ⟨hkeys, ?_, ?_, ?_, ?_, ?_⟩
  · intro u hu
    rw [hget u hu, hunused, count_flatten_eq_filter hW L u]
  · intro u
    show u ∈ mkSet (L.filter fun n => dictGet _ n = 0) ↔ _
    rw [mem_mkSet, List.mem_filter, hunused]
    simp only [decide_eq_true_eq]
    exact Iff.rfl
  · exact mkSet_nodup _
  · rw [hunused]
    exact (List.nil_append L) ▸ List.Perm.refl L
  · intro s1 v s2 hsplit
    exact absurd hsplit (by simp [initState])

theorem add_node_unused {g : Graph} {st st' : SchedState} {n : Nat}
    (hW : WFGraph g) (h : add_node g st n = some st') :
    st'.unused = st.unused.erase n ∧ n ∈ st.unused := by
  obtain ⟨h1, _, h3⟩ := add_node_char hW h
  exact ⟨by rw [h3], h1⟩

theorem add_all_pass_unused (g : Graph) (hW : WFGraph g) :
    ∀ (sorted : List Nat) (st : SchedState) (rem : List Nat)
      (st2 : SchedState) (rem2 : List Nat),
      add_all_pass g sorted st rem = some (st2, rem2) →
      st.unused.Nodup → (∀ x ∈ st.unused, x ∈ rem) →
      st2.unused.Nodup ∧ ∀ x ∈ st2.unused, x ∈ rem2 := by
  intro sorted
  induction sorted with
  | nil =>
    intro st rem st2 rem2 h hnd hsub
    simp only [add_all_pass, Option.some.injEq, Prod.mk.injEq] at h
    rw [← h.1, ← h.2]
    exact ⟨hnd, hsub⟩
  | cons n rest ih =>
    intro st rem st2 rem2 h hnd hsub
    by_cases hf : n ∈ st.free
    · rw [add_all_pass_cons_free hf] at h
      rcases Option.bind_eq_some.mp h with ⟨st1, hadd, hrest⟩
      obtain ⟨hu1, hn1⟩ := add_node_unused hW hadd
      refine ih st1 (rem.erase n) st2 rem2 hrest ?_ ?_
      · rw [hu1]
        exact hnd.erase n
      · intro x hx
        rw [hu1] at hx
        obtain ⟨hxn, hxu⟩ := (hnd.mem_erase_iff).mp hx
        exact (List.mem_erase_of_ne hxn).mpr (hsub x hxu)
    · rw [add_all_pass_cons_notfree hf] at h
      exact ih st rem st2 rem2 h hnd hsub

theorem add_all_loop_unused (g : Graph) (hW : WFGraph g) :
    ∀ (fuel : Nat) (st : SchedState) (all : List Nat) (st2 : SchedState),
      add_all_loop g fuel st all = some st2 →
      st.unused.Nodup → (∀ x ∈ st.unused, x ∈ all) →
      st2.unused = [] := by
  intro fuel
  induction fuel with
  | zero =>
    intro st all st2 h hnd hsub
    simp only [add_all_loop] at h
    by_cases he : all.isEmpty
    · rw [if_pos he] at h
      rw [← Option.some.inj h]
      rw [List.isEmpty_iff] at he
      subst he
      exact List.eq_nil_iff_forall_not_mem.mpr
        (fun a ha => by simpa using hsub a ha)
    · rw [if_neg he] at h
      exact absurd h (by simp)
  | succ fuel ih =>
    intro st all st2 h hnd hsub
    simp only [add_all_loop] at h
    by_cases he : all.isEmpty
    · rw [if_pos he] at h
      rw [← Option.some.inj h]
      rw [List.isEmpty_iff] at he
      subst he
      exact List.eq_nil_iff_forall_not_mem.mpr
        (fun a ha => by simpa using hsub a ha)
    · rw [if_neg he] at h
      rcases Option.bind_eq_some.mp h with ⟨⟨stm, remm⟩, hpass, hloop⟩
      obtain ⟨hnd2, hsub2⟩ :=
        add_all_pass_unused g hW (tuple_sorted all) st all stm remm hpass
          hnd hsub
      exact ih stm remm st2 hloop hnd2 hsub2

theorem add_all_nodes_self_unused {g : Graph} {fuel : Nat}
    {st st2 : SchedState} (hW : WFGraph g)
    (h : add_all_nodes g fuel st st.unused = some st2)
    (hnd : st.unused.Nodup) : st2.unused = [] := by
  unfold add_all_nodes at h
  by_cases ha : (mkSet st.unused).all (fun n => n ∈ st.unused) = true
  · rw [if_pos ha] at h
    refine add_all_loop_unused g hW fuel st (mkSet st.unused) st2 h hnd ?_
    intro x hx
    exact mem_mkSet.mpr hx
  · rw [if_neg (by simpa using ha)] at h
    exact absurd h (by simp)

theorem pair_sublist_split {a b : Nat} :
    ∀ {l : List Nat}, ([a, b] : List Nat).Sublist l →
      ∃ s1 s2 s3, l = s1 ++ a :: s2 ++ b :: s3 := by
  intro l h
  induction l with
  | nil => cases h
  | cons x rest ih =>
    cases h with
    | cons _ h2 =>
      rcases ih h2 with ⟨s1, s2, s3, hrfl⟩
      exact ⟨x :: s1, s2, s3, by rw [hrfl]; rfl⟩
    | cons₂ _ h2 =>
      have hb : b ∈ rest := List.singleton_sublist.mp h2
      rcases List.append_of_mem hb with ⟨s2, s3, hrfl⟩
      exact ⟨[], s2, s3, by rw [hrfl]; rfl⟩

theorem topoOrdered_of_prec {g : Graph} {nodes res : List Nat}
    (hperm : res.Perm nodes) (hnd : nodes.Nodup)
    (hprec : ∀ s1 v s2, res = s1 ++ v :: s2 → ∀ p ∈ nodes, Edge g p v →
      p ∈ s1) : TopoOrdered g res := by
  have hrnd : res.Nodup := hperm.nodup_iff.mpr hnd
  rw [TopoOrdered, List.pairwise_iff_forall_sublist]
  intro a b hsub
  intro hedge
  rcases pair_sublist_split hsub with ⟨s1, s2, s3, hrfl⟩
  have hsplit : res = s1 ++ a :: (s2 ++ b :: s3) := by
    rw [hrfl]; simp
  have hbmem : b ∈ nodes := hperm.mem_iff.mp (by rw [hrfl]; simp)
  have hbs1 : b ∈ s1 := hprec s1 a (s2 ++ b :: s3) hsplit b hbmem hedge
  have : ¬ res.Nodup := by
    rw [hsplit]
    intro hn
    rw [List.nodup_append] at hn
    exact hn.2.2 hbs1 (by simp)
  exact this hrnd

theorem smart_reordering_core {g : Graph} {fuel : Nat} {nodes out : List Nat}
    {c0 : Nat} {crest : List Nat}
    (hW : WFGraph g) (hnd : nodes.Nodup) (hSL : NoSelfLoop g nodes)
    (hfe : nodes.filter (fun n => isComm g n) = c0 :: crest)
    (h : smart_reordering fuel g nodes = some out) :
    ∃ res, raise_comms g (sink_waits g res) = some out ∧
      res.Perm nodes ∧ TopoOrdered g res := by
  unfold smart_reordering at h
  rw [hfe] at h
  rcases Option.bind_eq_some.mp h with ⟨st1, h1, h⟩
  rcases Option.bind_eq_some.mp h with ⟨st2, h2, h⟩
  rcases Option.bind_eq_some.mp h with ⟨st3, h3, h⟩
  have hsteps2 : SchedSteps g (initState g nodes) st2 :=
    schedSteps_trans (add_all_nodes_steps h1)
      (smart_loop_steps g (c0 :: crest) fuel crest c0 0 st1 st2 h2)
  have hInv2 : SchedInv g nodes st2 :=
    schedInv_steps hW hnd hSL hsteps2 (initState_inv hW hnd)
  have hInv3 : SchedInv g nodes st3 :=
    schedInv_steps hW hnd hSL (add_all_nodes_steps h3) hInv2
  have hu2nd : st2.unused.Nodup :=
    (List.nodup_append.mp (hInv2.perm.nodup_iff.mpr hnd)).2.1
  have hu3 : st3.unused = [] := add_all_nodes_self_unused hW h3 hu2nd
  have hperm : st3.result.Perm nodes := by
    have hp := hInv3.perm
    rw [hu3] at hp
    simpa using hp
  exact ⟨st3.result, h, hperm, topoOrdered_of_prec hperm hnd hInv3.prec⟩

/-! ### Duality between users and args on a well-formed graph -/

theorem lookup_of_mem {g : Graph} (hW : WFGraph g) {m : GNode} (hm : m ∈ g) :
    lookupNode g m.id = some m := by
  induction g with
  | nil => simp at hm
  | cons m0 rest ih =>
    rcases List.mem_cons.mp hm with h | h
    · subst h
      simp [lookupNode, List.find?_cons]
    · by_cases hid : m0.id = m.id
      · exfalso
        have : m.id ∈ idsOf rest := List.mem_map.mpr ⟨m, h, rfl⟩
        have hW2 : m0.id ∉ idsOf rest := by
          have := hW
          rw [WFGraph, idsOf, List.map_cons, List.nodup_cons] at this
          exact this.1
        rw [hid] at hW2
        exact hW2 this
      · have hb : (m0.id == m.id) = false := by simpa using hid
        rw [lookupNode, List.find?_cons, hb]
        refine ih ?_ h
        have := hW
        rw [WFGraph, idsOf, List.map_cons, List.nodup_cons] at this
        exact this.2

theorem lookup_of_ids {g : Graph} {v : Nat} (hv : v ∈ idsOf g) :
    ∃ m, lookupNode g v = some m ∧ m.id = v ∧ m ∈ g := by
  rcases List.mem_map.mp hv with ⟨m, hm, hid⟩
  induction g with
  | nil => simp at hm
  | cons m0 rest ih =>
    by_cases h0 : m0.id = v
    · refine ⟨m0, ?_, h0, by simp⟩
      simp [lookupNode, List.find?_cons, h0]
    · have hb : (m0.id == v) = false := by simpa using h0
      rcases List.mem_cons.mp hm with h | h
      · exact absurd (h ▸ hid) h0
      · rcases ih (List.mem_map.mpr ⟨m, h, hid⟩) h with ⟨m2, hl, hid2, hmem⟩
        exact ⟨m2, by rw [lookupNode, List.find?_cons, hb]; exact hl, hid2,
          by simp [hmem]⟩

theorem edge_iff_args {g : Graph} (hW : WFGraph g) {u v : Nat}
    (hv : v ∈ idsOf g) : Edge g u v ↔ u ∈ argsOf g v := by
  constructor
  · intro h
    rcases List.mem_map.mp h with ⟨m, hm, hid⟩
    have hmg : m ∈ g := List.mem_of_mem_filter hm
    have hargs : u ∈ m.args := by simpa using List.of_mem_filter hm
    have hlook : lookupNode g v = some m := by
      rw [← hid]
      exact lookup_of_mem hW hmg
    rw [argsOf, hlook]
    simpa using hargs
  · intro h
    rcases lookup_of_ids hv with ⟨m, hl, hid, hmem⟩
    rw [argsOf, hl] at h
    refine List.mem_map.mpr ⟨m, ?_, hid⟩
    rw [List.mem_filter]
    exact ⟨hmem, by simpa using h⟩

/-! ### sink_waits preserves topological order -/

theorem sink_fold_topo_aux (g : Graph) :
    ∀ (rest p A P : List Nat),
      TopoOrdered g (p ++ rest) → (p ++ rest).Nodup →
      NoWaitWait g (p ++ rest) →
      (A ++ P).Perm p → TopoOrdered g A →
      (∀ w ∈ P, isWait g w = true) →
      (∀ w ∈ P, ∀ v ∈ A, ¬ Edge g w v) →
      ((rest.foldl (sink_step g) (A, P)).1 ++
          (rest.foldl (sink_step g) (A, P)).2).Perm (p ++ rest) ∧
        TopoOrdered g (rest.foldl (sink_step g) (A, P)).1 ∧
        (∀ w ∈ (rest.foldl (sink_step g) (A, P)).2, isWait g w = true) ∧
        (∀ w ∈ (rest.foldl (sink_step g) (A, P)).2,
          ∀ v ∈ (rest.foldl (sink_step g) (A, P)).1, ¬ Edge g w v) := by
  intro rest
  induction rest with
  | nil =>
    intro p A P hT hnd hww hperm hTA hPW hPE
    simp only [List.foldl_nil]
    exact ⟨by simpa using hperm, hTA, hPW, hPE⟩
  | cons x rest ih =>
    intro p A P hT hnd hww hperm hTA hPW hPE
    have hre : p ++ x :: rest = (p ++ [x]) ++ rest := by simp
    have hT2 : TopoOrdered g ((p ++ [x]) ++ rest) := by rw [← hre]; exact hT
    have hnd2 : ((p ++ [x]) ++ rest).Nodup := by rw [← hre]; exact hnd
    have hww2 : NoWaitWait g ((p ++ [x]) ++ rest) := by rw [← hre]; exact hww
    have hcross : ∀ a ∈ p, ∀ b ∈ x :: rest, ¬ Edge g b a :=
      (List.pairwise_append.mp hT).2.2
    have hsubA : ∀ a ∈ A, a ∈ p := fun a ha =>
      hperm.mem_iff.mp (List.mem_append.mpr (Or.inl ha))
    have hsubP : ∀ w ∈ P, w ∈ p := fun w hw =>
      hperm.mem_iff.mp (List.mem_append.mpr (Or.inr hw))
    have hxp : x ∉ p := by
      intro hc
      have hd := (List.nodup_append.mp hnd).2.2
      exact hd hc (by simp)
    have hmem_l : ∀ a ∈ p, a ∈ p ++ x :: rest := fun a ha => by simp [ha]
    by_cases hx : isWait g x = true
    · have hxP : x ∉ P := fun hc => hxp (hsubP x hc)
      have hstep : sink_step g (A, P) x = (A, P ++ [x]) := by
        simp [sink_step, hx, hxP]
      rw [List.foldl_cons, hstep]
      have hih := ih (p ++ [x]) A (P ++ [x]) hT2 hnd2 hww2 ?_ hTA ?_ ?_
      · refine ⟨?_, hih.2.1, hih.2.2.1, hih.2.2.2⟩
        rw [hre]
        exact hih.1
      · have : (A ++ (P ++ [x])) = ((A ++ P) ++ [x]) := by simp
        rw [this]
        exact hperm.append_right [x]
      · intro w hw
        rcases List.mem_append.mp hw with h | h
        · exact hPW w h
        · have : w = x := by simpa using h
          subst this; exact hx
      · intro w hw v hv
        rcases List.mem_append.mp hw with h | h
        · exact hPE w h v hv
        · have hwx : w = x := by simpa using h
          subst hwx
          exact hcross v (hsubA v hv) w (by simp)
    · have hstep : sink_step g (A, P) x =
          ((A ++ (tuple_sorted P).filter (fun w => x ∈ usersOf g w)) ++ [x],
            P.filter (fun w => ¬ x ∈ usersOf g w)) := by
        simp [sink_step, hx]
      set R := (tuple_sorted P).filter (fun w => x ∈ usersOf g w) with hR
      have hsubR : ∀ w ∈ R, w ∈ P := fun w hw =>
        mem_tuple_sorted.mp (List.mem_of_mem_filter hw)
      have hRW : ∀ w ∈ R, isWait g w = true := fun w hw => hPW w (hsubR w hw)
      have hTA2 : TopoOrdered g ((A ++ R) ++ [x]) := by
        rw [TopoOrdered, List.pairwise_append]
        refine ⟨?_, by simp, ?_⟩
        · rw [List.pairwise_append]
          refine ⟨hTA, ?_, ?_⟩
          · refine List.pairwise_of_forall_mem_list ?_
            intro a ha b hb
            exact hww b (hmem_l b (hsubP b (hsubR b hb)))
              a (hmem_l a (hsubP a (hsubR a ha)))
              (hRW b hb) (hRW a ha)
          · intro a ha w hw
            exact hPE w (hsubR w hw) a ha
        · intro a ha b hb
          have hbx : b = x := by simpa using hb
          subst hbx
          rcases List.mem_append.mp ha with h | h
          · exact hcross a (hsubA a h) b (by simp)
          · exact hcross a (hsubP a (hsubR a h)) b (by simp)
      have hPE2 : ∀ w ∈ P.filter (fun w => ¬ x ∈ usersOf g w),
          ∀ v ∈ (A ++ R) ++ [x], ¬ Edge g w v := by
        intro w hw v hv
        have hwP : w ∈ P := List.mem_of_mem_filter hw
        rcases List.mem_append.mp hv with h | h
        · rcases List.mem_append.mp h with h2 | h2
          · exact hPE w hwP v h2
          · exact hww w (hmem_l w (hsubP w hwP))
              v (hmem_l v (hsubP v (hsubR v h2)))
              (hPW w hwP) (hRW v h2)
        · have hvx : v = x := by simpa using h
          subst hvx
          have := List.of_mem_filter hw
          simpa [Edge] using this
      have hperm2 : (((A ++ R) ++ [x]) ++
          P.filter (fun w => ¬ x ∈ usersOf g w)).Perm (p ++ [x]) := by
        have hRP : (R ++ P.filter (fun w => ¬ x ∈ usersOf g w)).Perm P := by
          have h1 : R.Perm (P.filter (fun w => x ∈ usersOf g w)) :=
            (tuple_sorted_perm P).filter _
          have h2 : P.filter (fun w => ¬ x ∈ usersOf g w) =
              P.filter (fun w => !(decide (x ∈ usersOf g w))) := by
            refine List.filter_congr ?_
            intro a _
            simp [decide_not]
          refine (h1.append (by rw [h2])).trans ?_
          exact List.filter_append_perm _ P
        have s1 : (((A ++ R) ++ [x]) ++
            P.filter (fun w => ¬ x ∈ usersOf g w)).Perm
            ((A ++ R) ++ (P.filter (fun w => ¬ x ∈ usersOf g w) ++ [x])) := by
          rw [List.append_assoc]
          exact List.Perm.append_left _ List.perm_append_comm
        have s2 : (A ++ R) ++ (P.filter (fun w => ¬ x ∈ usersOf g w) ++ [x]) =
            (A ++ (R ++ P.filter (fun w => ¬ x ∈ usersOf g w))) ++ [x] := by
          simp
        refine s1.trans ?_
        rw [s2]
        exact ((hRP.append_left A).append_right [x]).trans
          (hperm.append_right [x])
      rw [List.foldl_cons, hstep]
      have hih := ih (p ++ [x]) ((A ++ R) ++ [x])
        (P.filter (fun w => ¬ x ∈ usersOf g w)) hT2 hnd2 hww2 hperm2 hTA2
        (fun w hw => hPW w (List.mem_of_mem_filter hw)) hPE2
      refine ⟨?_, hih.2.1, hih.2.2.1, hih.2.2.2⟩
      rw [hre]
      exact hih.1

theorem sink_waits_topo {g : Graph} {l : List Nat}
    (hT : TopoOrdered g l) (hnd : l.Nodup) (hww : NoWaitWait g l) :
    TopoOrdered g (sink_waits g l) ∧ (sink_waits g l).Perm l := by
  have haux := sink_fold_topo_aux g l [] [] []
    (by simpa using hT) (by simpa using hnd) (by simpa using hww)
    (by simp) (by simp [TopoOrdered]) (by simp) (by simp)
  simp only [List.nil_append] at haux
  have hmemP : ∀ w ∈ (l.foldl (sink_step g) ([], [])).2, w ∈ l := by
    intro w hw
    exact haux.1.mem_iff.mp (List.mem_append.mpr (Or.inr hw))
  rw [sink_waits_eq]
  constructor
  · rw [TopoOrdered, List.pairwise_append]
    refine ⟨haux.2.1, ?_, ?_⟩
    · refine List.pairwise_of_forall_mem_list ?_
      intro a ha b hb
      exact hww b (hmemP b (mem_tuple_sorted.mp hb))
        a (hmemP a (mem_tuple_sorted.mp ha))
        (haux.2.2.1 b (mem_tuple_sorted.mp hb))
        (haux.2.2.1 a (mem_tuple_sorted.mp ha))
    · intro a ha b hb
      exact haux.2.2.2 b (mem_tuple_sorted.mp hb) a ha
  · refine List.Perm.trans ?_ haux.1
    exact List.Perm.append_left _ (tuple_sorted_perm _)

/-! ### raise_comms preserves topological order -/

theorem raise_fold_topo_aux (g : Graph) (hW : WFGraph g) :
    ∀ (rl p A Q : List Nat),
      (p ++ rl).Pairwise (fun u v => ¬ Edge g u v) →
      (∀ x ∈ p ++ rl, x ∈ idsOf g) →
      (A ++ Q).Perm p →
      A.Pairwise (fun u v => ¬ Edge g u v) →
      (∀ c ∈ Q, isComm g c = true) →
      (∀ c ∈ Q, ∀ v ∈ A, ¬ v ∈ argsOf g c) →
      Q.Pairwise (fun u v => ¬ Edge g u v) →
      ((rl.foldl (raise_step g) (A, Q)).1 ++
          (rl.foldl (raise_step g) (A, Q)).2).Perm (p ++ rl) ∧
        (rl.foldl (raise_step g) (A, Q)).1.Pairwise (fun u v => ¬ Edge g u v) ∧
        (∀ c ∈ (rl.foldl (raise_step g) (A, Q)).2, isComm g c = true) ∧
        (∀ c ∈ (rl.foldl (raise_step g) (A, Q)).2,
          ∀ v ∈ (rl.foldl (raise_step g) (A, Q)).1, ¬ v ∈ argsOf g c) ∧
        (rl.foldl (raise_step g) (A, Q)).2.Pairwise (fun u v => ¬ Edge g u v) := by
  intro rl
  induction rl with
  | nil =>
    intro p A Q hP hids hperm hA hQc hJ3 hQ5
    simp only [List.foldl_nil]
    exact ⟨by simpa using hperm, hA, hQc, hJ3, hQ5⟩
  | cons x rest ih =>
    intro p A Q hP hids hperm hA hQc hJ3 hQ5
    have hre : p ++ x :: rest = (p ++ [x]) ++ rest := by simp
    have hP2 : ((p ++ [x]) ++ rest).Pairwise (fun u v => ¬ Edge g u v) := by
      rw [← hre]; exact hP
    have hids2 : ∀ y ∈ (p ++ [x]) ++ rest, y ∈ idsOf g := by
      rw [← hre]; exact hids
    have hcross : ∀ a ∈ p, ∀ b ∈ x :: rest, ¬ Edge g a b :=
      (List.pairwise_append.mp hP).2.2
    have hsubA : ∀ a ∈ A, a ∈ p := fun a ha =>
      hperm.mem_iff.mp (List.mem_append.mpr (Or.inl ha))
    have hsubQ : ∀ c ∈ Q, c ∈ p := fun c hc =>
      hperm.mem_iff.mp (List.mem_append.mpr (Or.inr hc))
    have hxid : x ∈ idsOf g := hids x (by simp)
    by_cases hx : isComm g x = true
    · have hstep : raise_step g (A, Q) x = (A, Q ++ [x]) := by
        simp [raise_step, hx]
      rw [List.foldl_cons, hstep]
      have hih := ih (p ++ [x]) A (Q ++ [x]) hP2 hids2 ?_ hA ?_ ?_ ?_
      · refine ⟨?_, hih.2.1, hih.2.2.1, hih.2.2.2.1, hih.2.2.2.2⟩
        rw [hre]; exact hih.1
      · have : (A ++ (Q ++ [x])) = ((A ++ Q) ++ [x]) := by simp
        rw [this]
        exact hperm.append_right [x]
      · intro c hc
        rcases List.mem_append.mp hc with h | h
        · exact hQc c h
        · have : c = x := by simpa using h
          subst this; exact hx
      · intro c hc v hv
        rcases List.mem_append.mp hc with h | h
        · exact hJ3 c h v hv
        · have hcx : c = x := by simpa using h
          subst hcx
          intro harg
          exact hcross v (hsubA v hv) c (by simp)
            ((edge_iff_args hW hxid).mpr harg)
      · rw [List.pairwise_append]
        refine ⟨hQ5, by simp, ?_⟩
        intro c hc b hb
        have hbx : b = x := by simpa using hb
        subst hbx
        exact hcross c (hsubQ c hc) b (by simp)
    · have hstep : raise_step g (A, Q) x =
          ((A ++ (release g x Q).1) ++ [x], (release g x Q).2) := by
        simp [raise_step, hx]
      set r1 := (release g x Q).1 with hr1
      set r2 := (release g x Q).2 with hr2
      have hrel : r1 ++ r2 = Q := release_append g x Q
      have hsub1 : ∀ c ∈ r1, c ∈ Q := fun c hc => by
        rw [← hrel]; exact List.mem_append.mpr (Or.inl hc)
      have hsub2 : ∀ c ∈ r2, c ∈ Q := fun c hc => by
        rw [← hrel]; exact List.mem_append.mpr (Or.inr hc)
      have hQsplit : (r1 ++ r2).Pairwise (fun u v => ¬ Edge g u v) := by
        rw [hrel]; exact hQ5
      have hQparts := List.pairwise_append.mp hQsplit
      have hA2 : ((A ++ r1) ++ [x]).Pairwise (fun u v => ¬ Edge g u v) := by
        rw [List.pairwise_append]
        refine ⟨?_, by simp, ?_⟩
        · rw [List.pairwise_append]
          refine ⟨hA, hQparts.1, ?_⟩
          intro a ha c hc
          intro he
          exact hJ3 c (hsub1 c hc) a ha
            ((edge_iff_args hW (hids c (by simp [hsubQ c (hsub1 c hc)]))).mp he)
        · intro a ha b hb
          have hbx : b = x := by simpa using hb
          subst hbx
          rcases List.mem_append.mp ha with h | h
          · exact hcross a (hsubA a h) b (by simp)
          · exact hcross a (hsubQ a (hsub1 a h)) b (by simp)
      have hJ3_2 : ∀ c ∈ r2, ∀ v ∈ (A ++ r1) ++ [x], ¬ v ∈ argsOf g c := by
        intro c hc v hv
        rcases List.mem_append.mp hv with h | h
        · rcases List.mem_append.mp h with h2 | h2
          · exact hJ3 c (hsub2 c hc) v h2
          · intro harg
            exact hQparts.2.2 v h2 c hc
              ((edge_iff_args hW (hids c (by simp [hsubQ c (hsub2 c hc)]))).mpr
                harg)
        · have hvx : v = x := by simpa using h
          subst hvx
          exact release_snd_no_trigger g v Q c hc
      have hperm2 : (((A ++ r1) ++ [x]) ++ r2).Perm (p ++ [x]) := by
        have s1 : ((((A ++ r1) ++ [x]) ++ r2)).Perm ((A ++ r1) ++ (r2 ++ [x])) := by
          rw [List.append_assoc]
          exact List.Perm.append_left _ List.perm_append_comm
        have s2 : (A ++ r1) ++ (r2 ++ [x]) = (A ++ (r1 ++ r2)) ++ [x] := by
          simp
        refine s1.trans ?_
        rw [s2, hrel]
        exact hperm.append_right [x]
      rw [List.foldl_cons, hstep]
      have hih := ih (p ++ [x]) ((A ++ r1) ++ [x]) r2 hP2 hids2 hperm2 hA2
        (fun c hc => hQc c (hsub2 c hc)) hJ3_2 hQparts.2.1
      refine ⟨?_, hih.2.1, hih.2.2.1, hih.2.2.2.1, hih.2.2.2.2⟩
      rw [hre]; exact hih.1

theorem raise_comms_topo {g : Graph} {l out : List Nat} (hW : WFGraph g)
    (hT : TopoOrdered g l) (hids : ∀ x ∈ l, x ∈ idsOf g)
    (h : raise_comms g l = some out) :
    TopoOrdered g out ∧ out.Perm l := by
  rw [raise_comms_eq] at h
  by_cases hlen : (l.reverse.foldl (raise_step g) ([], [])).2.length ≤ 1
  · rw [if_pos hlen] at h
    have hout := Option.some.inj h
    subst hout
    have hq : (([] : List Nat) ++ l.reverse).Pairwise
        (fun u v => ¬ Edge g u v) := by
      simp only [List.nil_append]
      rw [List.pairwise_reverse]
      exact hT
    have haux := raise_fold_topo_aux g hW l.reverse [] [] [] hq
      (by intro x hx; exact hids x (by simpa using hx))
      (by simp) (by simp) (by simp) (by simp) (by simp)
    simp only [List.nil_append] at haux
    set st := l.reverse.foldl (raise_step g) ([], []) with hst
    rw [tuple_sorted_len_le_one hlen]
    constructor
    · rw [TopoOrdered, List.pairwise_reverse]
      rw [List.pairwise_append]
      refine ⟨haux.2.1, haux.2.2.2.2, ?_⟩
      intro a ha c hc
      intro he
      have hcid : c ∈ idsOf g := by
        have hcin : c ∈ l.reverse :=
          haux.1.mem_iff.mp (List.mem_append.mpr (Or.inr hc))
        exact hids c (by simpa using hcin)
      exact haux.2.2.2.1 c hc a ha ((edge_iff_args hW hcid).mp he)
    · refine ((st.1 ++ st.2).reverse_perm).trans ?_
      exact haux.1.trans l.reverse_perm
  · rw [if_neg hlen] at h
    exact absurd h (by simp)

/-! ### Precedence in topologically ordered sequences -/

theorem topoOrdered_edge_precedes {g : Graph} :
    ∀ {s : List Nat} {u v : Nat}, TopoOrdered g s → u ∈ s → v ∈ s →
      u ≠ v → Edge g u v → Precedes s u v := by
  intro s
  induction s with
  | nil => intro u v _ hu _ _ _; simp at hu
  | cons a t ih =>
    intro u v hT hu hv huv he
    have hpw := List.pairwise_cons.mp hT
    rcases List.mem_cons.mp hu with hua | hut
    · subst hua
      have hvt : v ∈ t := by
        rcases List.mem_cons.mp hv with hva | hvt
        · exact absurd hva.symm huv
        · exact hvt
      exact ⟨[], t, by simp, hvt⟩
    · rcases List.mem_cons.mp hv with hva | hvt
      · subst hva
        exact absurd he (hpw.1 u hut)
      · rcases ih hpw.2 hut hvt huv he with ⟨s1, s2, hsp, hv2⟩
        exact ⟨a :: s1, s2, by rw [hsp]; rfl, hv2⟩

theorem precedes_mem_left {s : List Nat} {a b : Nat} (h : Precedes s a b) :
    a ∈ s := by
  rcases h with ⟨s1, s2, hsp, _⟩
  subst hsp
  simp

theorem precedes_mem_right {s : List Nat} {a b : Nat} (h : Precedes s a b) :
    b ∈ s := by
  rcases h with ⟨s1, s2, hsp, hb⟩
  subst hsp
  simp [hb]

theorem precedes_cons_iff {x : Nat} {rest : List Nat} {a b : Nat} :
    Precedes (x :: rest) a b ↔ (x = a ∧ b ∈ rest) ∨ Precedes rest a b := by
  constructor
  · rintro ⟨s1, s2, hsp, hb⟩
    cases s1 with
    | nil =>
      simp only [List.nil_append, List.cons.injEq] at hsp
      exact Or.inl ⟨hsp.1, hsp.2 ▸ hb⟩
    | cons y s1' =>
      simp only [List.cons_append, List.cons.injEq] at hsp
      exact Or.inr ⟨s1', s2, hsp.2, hb⟩
  · rintro (⟨hxa, hb⟩ | ⟨s1, s2, hsp, hb⟩)
    · exact ⟨[], rest, by rw [hxa]; rfl, hb⟩
    · exact ⟨x :: s1, s2, by rw [hsp]; rfl, hb⟩

theorem precedes_trans {s : List Nat} (hnd : s.Nodup) :
    ∀ {a b c : Nat}, Precedes s a b → Precedes s b c → Precedes s a c := by
  induction s with
  | nil =>
    intro a b c h1 _
    rcases h1 with ⟨s1, _, hsp, _⟩
    exact absurd hsp (by simp)
  | cons x rest ih =>
    intro a b c h1 h2
    have hx : x ∉ rest := (List.nodup_cons.mp hnd).1
    have hndr : rest.Nodup := (List.nodup_cons.mp hnd).2
    rcases precedes_cons_iff.mp h1 with ⟨hxa, hbr⟩ | hp1
    · rcases precedes_cons_iff.mp h2 with ⟨hxb, hcr⟩ | hp2
      · exact absurd (hxb ▸ hbr) hx
      · exact precedes_cons_iff.mpr (Or.inl ⟨hxa, precedes_mem_right hp2⟩)
    · rcases precedes_cons_iff.mp h2 with ⟨hxb, hcr⟩ | hp2
      · exact absurd (hxb ▸ precedes_mem_right hp1) hx
      · exact precedes_cons_iff.mpr (Or.inr (ih hndr hp1 hp2))

theorem precedes_filter {s : List Nat} {a b : Nat} {p : Nat → Bool}
    (h : Precedes s a b) (hpa : p a = true) (hpb : p b = true) :
    Precedes (s.filter p) a b := by
  rcases h with ⟨s1, s2, hsp, hb⟩
  subst hsp
  refine ⟨s1.filter p, s2.filter p, ?_, List.mem_filter.mpr ⟨hb, hpb⟩⟩
  rw [List.filter_append, List.filter_cons, hpa]
  rfl

theorem precedes_of_sublist {s' s : List Nat} (hsub : s'.Sublist s) :
    ∀ {a b : Nat}, Precedes s' a b → Precedes s a b := by
  induction hsub with
  | slnil =>
    intro a b h
    rcases h with ⟨s1, _, hsp, _⟩
    exact absurd hsp (by simp)
  | cons y _ ih =>
    intro a b h
    exact precedes_cons_iff.mpr (Or.inr (ih h))
  | @cons₂ l1 l2 y hsb ih =>
    intro a b h
    rcases precedes_cons_iff.mp h with ⟨hya, hb⟩ | hp
    · exact precedes_cons_iff.mpr (Or.inl ⟨hya, hsb.mem hb⟩)
    · exact precedes_cons_iff.mpr (Or.inr (ih hp))

theorem isComm_not_isWait {g : Graph} {n : Nat} (h : isComm g n = true) :
    isWait g n = false := by
  unfold isComm at h
  unfold isWait
  rcases hk : kindOf g n with _ | _ | _ <;> simp [hk] at h ⊢

theorem filter_comm_through_nonwait (g : Graph) (l : List Nat) :
    (l.filter (fun n => !(isWait g n))).filter (fun n => isComm g n) =
      l.filter (fun n => isComm g n) := by
  rw [List.filter_filter]
  refine List.filter_congr ?_
  intro n _
  cases hc : isComm g n
  · simp
  · simp [isComm_not_isWait hc]

/-- The CommStart subsequence of the output of sink_waits is exactly the
CommStart subsequence of its input. -/
theorem sink_waits_comm_subseq (g : Graph) (l : List Nat) :
    (sink_waits g l).filter (fun n => isComm g n) =
      l.filter (fun n => isComm g n) := by
  rw [← filter_comm_through_nonwait g (sink_waits g l), sink_waits_frame,
    filter_comm_through_nonwait]

/-! ### Structure of the synthetic-ordering pass -/

theorem addSynthDep_id (g : Graph) (m : GNode) :
    (addSynthDep g m).id = m.id := by
  unfold addSynthDep
  cases ((commIds g).zip (commIds g).tail).find? (fun p => p.2 == m.id) with
  | none => rfl
  | some p => rfl

theorem addSynthDep_kind (g : Graph) (m : GNode) :
    (addSynthDep g m).kind = m.kind := by
  unfold addSynthDep
  cases ((commIds g).zip (commIds g).tail).find? (fun p => p.2 == m.id) with
  | none => rfl
  | some p => rfl

theorem dg_lookup (g : Graph) (n : Nat) :
    lookupNode (decide_global_ordering_comms g) n =
      (lookupNode g n).map (addSynthDep g) := by
  unfold decide_global_ordering_comms lookupNode
  have hpe : ((fun x => x.id == n) ∘ addSynthDep g) =
      (fun m => m.id == n) := by
    funext m
    simp [Function.comp, addSynthDep_id]
  rw [List.find?_map, hpe]

theorem dg_ids (g : Graph) :
    idsOf (decide_global_ordering_comms g) = idsOf g := by
  unfold decide_global_ordering_comms idsOf
  rw [List.map_map]
  refine List.map_congr_left ?_
  intro m _
  simp [Function.comp, addSynthDep_id]

theorem dg_WF {g : Graph} (hW : WFGraph g) :
    WFGraph (decide_global_ordering_comms g) := by
  unfold WFGraph
  rw [dg_ids]
  exact hW

theorem dg_kindOf (g : Graph) (n : Nat) :
    kindOf (decide_global_ordering_comms g) n = kindOf g n := by
  unfold kindOf
  rw [dg_lookup]
  cases lookupNode g n with
  | none => rfl
  | some m => simp [addSynthDep_kind]

theorem dg_isComm (g : Graph) (n : Nat) :
    isComm (decide_global_ordering_comms g) n = isComm g n := by
  unfold isComm
  rw [dg_kindOf]

theorem commIds_sublist_ids (g : Graph) : (commIds g).Sublist (idsOf g) := by
  unfold commIds idsOf
  exact List.Sublist.map _ (List.filter_sublist g)

theorem commIds_nodup {g : Graph} (hW : WFGraph g) : (commIds g).Nodup :=
  (commIds_sublist_ids g).nodup hW

theorem zip_tail_find :
    ∀ {cs : List Nat}, cs.Nodup → ∀ {x y : Nat},
      (x, y) ∈ cs.zip cs.tail →
      (cs.zip cs.tail).find? (fun p => p.2 == y) = some (x, y) := by
  intro cs
  induction cs with
  | nil => intro _ x y hm; simp [List.zip] at hm
  | cons c rest ih =>
    intro hnd x y hm
    cases rest with
    | nil => simp [List.zip] at hm
    | cons d rest' =>
      have hzip : (c :: d :: rest').zip (c :: d :: rest').tail =
          (c, d) :: (d :: rest').zip (d :: rest').tail := rfl
      rw [hzip] at hm ⊢
      rcases List.mem_cons.mp hm with h | h
      · have hxc : x = c := congrArg Prod.fst h
        have hyd : y = d := congrArg Prod.snd h
        subst hxc; subst hyd
        simp [List.find?_cons]
      · have hyr : y ∈ rest' := by
          have := (List.of_mem_zip h).2
          simpa using this
        have hd : d ∉ rest' :=
          (List.nodup_cons.mp (List.nodup_cons.mp hnd).2).1
        have hne : (d == y) = false := by
          simp only [beq_eq_false_iff_ne]
          intro hdy
          exact hd (hdy ▸ hyr)
        rw [List.find?_cons]
        simp only [hne]
        exact ih (List.nodup_cons.mp hnd).2 h

/-- Every consecutive pair of comm nodes is joined by a synthetic edge
after the Global Communication Orderer has run. -/
theorem comm_chain_edge {g : Graph} (hW : WFGraph g) :
    ∀ p ∈ (commIds g).zip (commIds g).tail,
      Edge (decide_global_ordering_comms g) p.1 p.2 := by
  rintro ⟨x, y⟩ hm
  have hyt : y ∈ (commIds g).tail := (List.of_mem_zip hm).2
  have hyc : y ∈ commIds g := List.mem_of_mem_tail hyt
  have hyi : y ∈ idsOf g := (commIds_sublist_ids g).mem hyc
  rcases lookup_of_ids hyi with ⟨m, hl, hid, _⟩
  have hargs : argsOf (decide_global_ordering_comms g) y = m.args ++ [x] := by
    unfold argsOf
    rw [dg_lookup, hl]
    simp only [Option.map_some, Option.map_map, Option.getD_some]
    show (addSynthDep g m).args = m.args ++ [x]
    unfold addSynthDep
    rw [hid, zip_tail_find (commIds_nodup hW) hm]
  have hmem : x ∈ argsOf (decide_global_ordering_comms g) y := by
    rw [hargs]; simp
  have hyi2 : y ∈ idsOf (decide_global_ordering_comms g) := by
    rw [dg_ids]; exact hyi
  exact (edge_iff_args (dg_WF hW) hyi2).mpr hmem

/-! ### Chains of edges force precedence in a topological order -/

theorem chain_precedes_aux {g : Graph} {res : List Nat}
    (hT : TopoOrdered g res) (hndres : res.Nodup) :
    ∀ (rest : List Nat) (x : Nat),
      (∀ p ∈ (x :: rest).zip rest, Edge g p.1 p.2) →
      (x :: rest).Nodup → (∀ z ∈ x :: rest, z ∈ res) →
      ∀ b ∈ rest, Precedes res x b := by
  intro rest
  induction rest with
  | nil => intro x _ _ _ b hb; simp at hb
  | cons y rest' ih =>
    intro x hedges hnd hsub b hb
    have hedge : Edge g x y := hedges (x, y) (by simp [List.zip])
    have hxy : x ≠ y := by
      intro h
      exact (List.nodup_cons.mp hnd).1 (h ▸ List.mem_cons_self y rest')
    have hPxy : Precedes res x y :=
      topoOrdered_edge_precedes hT (hsub x (by simp)) (hsub y (by simp))
        hxy hedge
    rcases List.mem_cons.mp hb with hby | hbr
    · exact hby ▸ hPxy
    · have hPyb : Precedes res y b := by
        refine ih y ?_ (List.nodup_cons.mp hnd).2
          (fun z hz => hsub z (List.mem_cons_of_mem x hz)) b hbr
        intro p hp
        refine hedges p ?_
        show p ∈ (x :: y :: rest').zip (y :: rest')
        have : (x :: y :: rest').zip (y :: rest') =
            (x, y) :: (y :: rest').zip rest' := rfl
        rw [this]
        exact List.mem_cons_of_mem _ hp
      exact precedes_trans hndres hPxy hPyb

theorem chain_precedes {g : Graph} {res : List Nat}
    (hT : TopoOrdered g res) (hndres : res.Nodup) :
    ∀ (cs : List Nat),
      (∀ p ∈ cs.zip cs.tail, Edge g p.1 p.2) → cs.Nodup →
      (∀ z ∈ cs, z ∈ res) →
      ∀ a b, Precedes cs a b → Precedes res a b := by
  intro cs
  induction cs with
  | nil =>
    intro _ _ _ a b h
    rcases h with ⟨s1, _, hsp, _⟩
    exact absurd hsp (by simp)
  | cons x rest ih =>
    intro hedges hnd hsub a b h
    rcases precedes_cons_iff.mp h with ⟨hxa, hb⟩ | hp
    · exact hxa ▸ chain_precedes_aux hT hndres rest x hedges hnd hsub b hb
    · refine ih ?_ (List.nodup_cons.mp hnd).2
        (fun z hz => hsub z (List.mem_cons_of_mem x hz)) a b hp
      intro p hp2
      cases rest with
      | nil => simp [List.zip] at hp2
      | cons y rest' =>
        refine hedges p ?_
        show p ∈ (x :: y :: rest').zip (y :: rest')
        have : (x :: y :: rest').zip (y :: rest') =
            (x, y) :: (y :: rest').zip rest' := rfl
        rw [this]
        exact List.mem_cons_of_mem _ hp2

/-! ### Claim theorems and witnesses -/

/-- C5: if the input node list contains no CommStart nodes, the Overlap
Scheduler returns its input order unchanged. -/
theorem C5_no_comm_identity (fuel : Nat) (g : Graph) (nodes : List Nat)
    (h : ∀ n ∈ nodes, isComm g n = false) :
    smart_reordering fuel g nodes = some nodes :=
  smart_reordering_no_comm
    (List.filter_eq_nil_iff.mpr (by intro a ha; simp [h a ha]))

theorem C5_no_comm_identity_witness :
    (∀ n ∈ ([0, 1] : List Nat), isComm exGCycle n = false) ∧
      smart_reordering 3 exGCycle [0, 1] = some [0, 1] :=
  ⟨by decide, C5_no_comm_identity 3 exGCycle [0, 1] (by decide)⟩

/-- C6: in a main-loop iteration of the Overlap Scheduler, if the total
cost after the Priority-1 step already meets or exceeds the previous
comm's cost, the Priority-2 step schedules no node and leaves the total
cost unchanged. -/
theorem C6_priority2_noop (g : Graph) (comms : List Nat) (prev : Nat)
    (comm_cost : Nat) (st : SchedState) (total : Nat)
    (h : total ≥ comm_cost) :
    priority2_step g comms prev comm_cost st total = some (st, total) := by
  unfold priority2_step
  rw [if_pos h]

theorem C6_priority2_noop_witness :
    (5 : Nat) ≥ 5 ∧
      priority2_step exG7 [2, 3] 2 5 (initState exG7 exL7) 5 =
        some (initState exG7 exL7, 5) :=
  ⟨le_refl 5, C6_priority2_noop exG7 [2, 3] 2 5 (initState exG7 exL7) 5 (le_refl 5)⟩

/-- C7: on the concrete scenario graph (`A=0, B=1, C1=2, C2=3, D=4, W1=5,
W2=6`, costs `A=1, C1=5, B=2, C2=5, D=1`), the Overlap Scheduler emits
exactly `A, C1, W1, B, C2, W2, D`, i.e. `A, C1, B, C2, W2, D` with `W1`
scheduled immediately before `B`. -/
theorem C7_concrete_scenario :
    smart_reordering 20 exG7 exL7 = some [0, 2, 5, 1, 3, 6, 4] := by
  decide

/-- C9 counterexample: the comm-free two-node cycle is a cyclic input
graph, yet the Overlap Scheduler neither detects the cycle nor fails
fatally: it returns the input unchanged (a fatal failure would be
`none`). -/
theorem C9_counterexample :
    Edge exGCycle 0 1 ∧ Edge exGCycle 1 0 ∧
      smart_reordering 5 exGCycle [0, 1] = some [0, 1] := by
  decide

/-- C9 amended: a cyclic input graph is not detected.  Without CommStart
nodes the Overlap Scheduler returns the input unchanged for every fuel
bound; with a CommStart node present its scheduling loop makes no progress
and never terminates (modelled: `none` for every fuel bound), so it
neither fails fatally with a cycle diagnostic nor drops nodes from a
returned schedule. -/
theorem C9_amended :
    (∀ fuel, smart_reordering fuel exGCycle [0, 1] = some [0, 1]) ∧
      ∀ fuel, smart_reordering fuel exGCycleComm [0, 1, 2] = none := by
  constructor
  · intro fuel
    exact smart_reordering_no_comm (by decide)
  · intro fuel
    refine @smart_none_of_first_add_all exGCycleComm [0, 1, 2] 2 [] fuel
      (by decide) ?_
    rw [add_all_nodes_unfold (by decide) fuel]
    have hm : mkSet (get_ancestors exGCycleComm 2 ++ [2]) = [0, 1, 2] := by
      decide
    rw [hm]
    exact add_all_loop_stuck (by decide) (by decide) fuel

/-- C10: the cleanup passes only move the nodes they target: sink_waits
preserves the subsequence of non-Wait nodes, and raise_comms preserves the
subsequence of non-CommStart nodes, for every input sequence. -/
theorem C10_cleanup_frame (g : Graph) (l : List Nat) :
    (sink_waits g l).filter (fun n => !(isWait g n)) =
        l.filter (fun n => !(isWait g n)) ∧
      ∀ out, raise_comms g l = some out →
        out.filter (fun n => !(isComm g n)) =
          l.filter (fun n => !(isComm g n)) :=
  ⟨sink_waits_frame g l, fun _ h => raise_comms_frame h⟩

theorem C10_cleanup_frame_witness :
    raise_comms exG7 exL7 = some [0, 2, 5, 1, 3, 6, 4] ∧
      (sink_waits exG7 exL7).filter (fun n => !(isWait exG7 n)) =
        exL7.filter (fun n => !(isWait exG7 n)) ∧
      ([0, 2, 5, 1, 3, 6, 4] : List Nat).filter (fun n => !(isComm exG7 n)) =
        exL7.filter (fun n => !(isComm exG7 n)) :=
  ⟨by decide, (C10_cleanup_frame exG7 exL7).1,
    (C10_cleanup_frame exG7 exL7).2 [0, 2, 5, 1, 3, 6, 4] (by decide)⟩

/-- C3 counterexample: two Wait nodes `0 < 1` first used by the same node
`2`.  In the sunk sequence `[0, 1, 2]`, wait `0` neither immediately
precedes its earliest user `2`, nor is it the last element. -/
theorem C3_counterexample :
    sink_waits exGTwoWaits [0, 1, 2] = [0, 1, 2] ∧
      isWait exGTwoWaits 0 = true ∧
      Edge exGTwoWaits 0 2 ∧ ¬ Edge exGTwoWaits 0 1 ∧ ¬ Edge exGTwoWaits 0 0 ∧
      ([0, 1, 2] : List Nat).indexOf 2 ≠ ([0, 1, 2] : List Nat).indexOf 0 + 1 ∧
      ([0, 1, 2] : List Nat).getLast? ≠ some 0 := by
  decide

/-- C3 amended: for every Wait node `w` in the output of sink_waits,
either only Wait nodes follow `w`, or only Wait nodes separate `w` from
the first non-Wait node after it, and that node uses `w`. -/
theorem C3_wait_placement (g : Graph) (l : List Nat) :
    SunkShape g (sink_waits g l) :=
  sink_waits_shape g l

theorem C3_wait_placement_witness :
    (sink_waits exGTwoWaits [0, 1, 2] = ([] : List Nat) ++ 0 :: [1, 2] ∧
        isWait exGTwoWaits 0 = true) ∧
      ((∀ y ∈ ([1, 2] : List Nat), isWait exGTwoWaits y = true) ∨
        ∃ ws x rest, ([1, 2] : List Nat) = ws ++ x :: rest ∧
          (∀ y ∈ ws, isWait exGTwoWaits y = true) ∧
          isWait exGTwoWaits x = false ∧ Edge exGTwoWaits 0 x) :=
  ⟨⟨by decide, by decide⟩,
    C3_wait_placement exGTwoWaits [0, 1, 2] [] 0 [1, 2] (by decide) (by decide)⟩

/-- C4 counterexample: in `exGTwoComms`, comm `3`'s release is dragged by
comm `2`'s pending check, so in the raised sequence `[0, 1, 2, 3]` comm `3`
is neither immediately after its only in-sequence predecessor `0` nor the
first element. -/
theorem C4_counterexample :
    raise_comms exGTwoComms [0, 1, 2, 3] = some [0, 1, 2, 3] ∧
      isComm exGTwoComms 3 = true ∧
      (0 : Nat) ∈ argsOf exGTwoComms 3 ∧
      ¬ (1 : Nat) ∈ argsOf exGTwoComms 3 ∧
      ¬ (2 : Nat) ∈ argsOf exGTwoComms 3 ∧
      ¬ (3 : Nat) ∈ argsOf exGTwoComms 3 ∧
      ([0, 1, 2, 3] : List Nat).indexOf 3 ≠
        ([0, 1, 2, 3] : List Nat).indexOf 0 + 1 ∧
      ([0, 1, 2, 3] : List Nat).head? ≠ some 3 := by
  decide

/-- C4 amended: for a sequence containing a single CommStart node `c`, all
of whose in-sequence predecessors precede it, raise_comms places `c`
immediately after the last in-sequence element of `c.args` (nothing after
`c` being a predecessor), or first when no element of the sequence is a
predecessor of `c`. -/
theorem C4_comm_placement (g : Graph) (l1 l2 : List Nat) (c : Nat)
    (hc : isComm g c = true)
    (hnc : ∀ n ∈ l1 ++ l2, isComm g n = false)
    (hl2 : ∀ a ∈ l2, ¬ a ∈ argsOf g c) :
    ((∀ a ∈ l1, ¬ a ∈ argsOf g c) →
        raise_comms g (l1 ++ c :: l2) = some (c :: (l1 ++ l2))) ∧
      ∀ m1 t m2, l1 = m1 ++ t :: m2 → t ∈ argsOf g c →
        (∀ b ∈ m2, ¬ b ∈ argsOf g c) →
        raise_comms g (l1 ++ c :: l2) = some (m1 ++ t :: c :: (m2 ++ l2)) ∧
          ∀ b ∈ m2 ++ l2, ¬ b ∈ argsOf g c := by
  refine ⟨(raise_single_comm g l1 l2 c hc hnc).1, ?_⟩
  intro m1 t m2 hsplit hta hm2
  refine ⟨(raise_single_comm g l1 l2 c hc hnc).2 m1 t m2 hsplit hta hm2, ?_⟩
  intro b hb
  rcases List.mem_append.mp hb with h | h
  · exact hm2 b h
  · exact hl2 b h

theorem C4_comm_placement_witness :
    (isComm exGTwoComms 2 = true ∧
        (∀ n ∈ ([0, 1] : List Nat) ++ [], isComm exGTwoComms n = false) ∧
        (1 : Nat) ∈ argsOf exGTwoComms 2) ∧
      raise_comms exGTwoComms ([0, 1] ++ 2 :: []) =
          some ([0] ++ 1 :: 2 :: ([] ++ [])) ∧
        ∀ b ∈ ([] : List Nat) ++ [], ¬ b ∈ argsOf exGTwoComms 2 :=
  ⟨⟨by decide, by decide, by decide⟩,
    (C4_comm_placement exGTwoComms [0, 1] [] 2 (by decide) (by decide)
      (by decide)).2 [0] 1 [] rfl (by decide) (by decide)⟩

/-- C8: Wait Sinker and Communication Raiser are idempotent: re-applying
sink_waits to a sunk sequence returns it unchanged, and re-applying
raise_comms to any sequence it accepts returns that sequence unchanged. -/
theorem C8_idempotence (g : Graph) :
    (∀ s, sink_waits g (sink_waits g s) = sink_waits g s) ∧
      ∀ s out, raise_comms g s = some out → raise_comms g out = some out :=
  ⟨fun s => sink_waits_idem g s, fun _ _ h => raise_comms_idem h⟩

theorem C8_idempotence_witness :
    raise_comms exGTwoComms [0, 1, 2, 3] = some [0, 1, 2, 3] ∧
      sink_waits exGTwoWaits (sink_waits exGTwoWaits [0, 1, 2]) =
        sink_waits exGTwoWaits [0, 1, 2] ∧
      raise_comms exGTwoComms [0, 1, 2, 3] = some [0, 1, 2, 3] :=
  ⟨by decide, (C8_idempotence exGTwoWaits).1 [0, 1, 2],
    (C8_idempotence exGTwoComms).2 [0, 1, 2, 3] [0, 1, 2, 3] (by decide)⟩

/-- C1 counterexample: `[0, 1, 2, 3]` is a duplicate-free topological
order of the acyclic wait-feeds-wait graph `exGWW`, yet both the Baseline
and the Overlap scheduler return `[0, 2, 3, 1]`, which violates the edge
`1 → 2`: the claimed topological validity fails on this input. -/
theorem C1_counterexample :
    TopoOrdered exGWW [0, 1, 2, 3] ∧ WFGraph exGWW ∧
      ([0, 1, 2, 3] : List Nat).Nodup ∧
      (∀ n ∈ ([0, 1, 2, 3] : List Nat), n ∈ idsOf exGWW) ∧
      dumb_reordering exGWW [0, 1, 2, 3] = some [0, 2, 3, 1] ∧
      smart_reordering 20 exGWW [0, 1, 2, 3] = some [0, 2, 3, 1] ∧
      Edge exGWW 1 2 ∧ ¬ TopoOrdered exGWW [0, 2, 3, 1] := by
  decide

/-- C1 (amended): on a well-formed graph and a duplicate-free topological
input list none of whose Wait nodes feeds another listed Wait node, every
schedule either scheduler actually returns is a topological permutation
of the input: for every edge `u → v` between listed nodes, `u` precedes
`v` in the output. -/
theorem C1_schedulers_topological {g : Graph} {nodes : List Nat}
    (hW : WFGraph g) (hids : ∀ n ∈ nodes, n ∈ idsOf g)
    (hnd : nodes.Nodup) (hT : TopoOrdered g nodes)
    (hSL : NoSelfLoop g nodes) (hww : NoWaitWait g nodes) :
    (∀ out, dumb_reordering g nodes = some out →
        TopoOrdered g out ∧ out.Perm nodes ∧
          ∀ u v, u ∈ nodes → v ∈ nodes → u ≠ v → Edge g u v →
            Precedes out u v) ∧
      ∀ fuel out, smart_reordering fuel g nodes = some out →
        TopoOrdered g out ∧ out.Perm nodes ∧
          ∀ u v, u ∈ nodes → v ∈ nodes → u ≠ v → Edge g u v →
            Precedes out u v := by
  have base : ∀ res out, res.Perm nodes → TopoOrdered g res →
      raise_comms g (sink_waits g res) = some out →
      TopoOrdered g out ∧ out.Perm nodes ∧
        ∀ u v, u ∈ nodes → v ∈ nodes → u ≠ v → Edge g u v →
          Precedes out u v := by
    intro res out hperm hTres h
    have hndres : res.Nodup := hperm.nodup_iff.mpr hnd
    have hwwres : NoWaitWait g res := fun u hu v hv =>
      hww u (hperm.mem_iff.mp hu) v (hperm.mem_iff.mp hv)
    have hsink := sink_waits_topo hTres hndres hwwres
    have hidss : ∀ x ∈ sink_waits g res, x ∈ idsOf g := fun x hx =>
      hids x (hperm.mem_iff.mp (hsink.2.mem_iff.mp hx))
    have hraise := raise_comms_topo hW hsink.1 hidss h
    have houtp : out.Perm nodes := (hraise.2.trans hsink.2).trans hperm
    refine ⟨hraise.1, houtp, ?_⟩
    intro u v hu hv huv he
    exact topoOrdered_edge_precedes hraise.1 (houtp.mem_iff.mpr hu)
      (houtp.mem_iff.mpr hv) huv he
  constructor
  · intro out h
    exact base nodes out (List.Perm.refl nodes) hT h
  · intro fuel out h
    cases hfe : nodes.filter (fun n => isComm g n) with
    | nil =>
      rw [smart_reordering_no_comm hfe] at h
      have hno := Option.some.inj h
      subst hno
      exact ⟨hT, List.Perm.refl nodes, fun u v hu hv huv he =>
        topoOrdered_edge_precedes hT hu hv huv he⟩
    | cons c0 crest =>
      rcases smart_reordering_core hW hnd hSL hfe h with ⟨res, hre, hperm, hTres⟩
      exact base res out hperm hTres hre

theorem C1_schedulers_topological_witness :
    TopoOrdered exG7 [0, 2, 5, 1, 3, 6, 4] ∧
      ([0, 2, 5, 1, 3, 6, 4] : List Nat).Perm exL7 := by
  have h := (C1_schedulers_topological (show WFGraph exG7 by decide)
    (show ∀ n ∈ exL7, n ∈ idsOf exG7 by decide)
    (show exL7.Nodup by decide) (show TopoOrdered exG7 exL7 by decide)
    (show NoSelfLoop exG7 exL7 by decide)
    (show NoWaitWait exG7 exL7 by decide)).2 20 [0, 2, 5, 1, 3, 6, 4]
    (by decide)
  exact ⟨h.1, h.2.1⟩

/-- C2: after the Global Communication Orderer has added its synthetic
ordering edges, any two CommStart nodes `a`, `b` with `a` before `b` in
the input node list (whose comm subsequence is the graph's original comm
order) satisfy: `a` precedes `b` in every schedule the Baseline or the
Overlap Scheduler actually returns. -/
theorem C2_comm_order_preserved {g : Graph} {nodes : List Nat} {a b : Nat}
    (hW : WFGraph g) (hnd : nodes.Nodup)
    (hSL : NoSelfLoop (decide_global_ordering_comms g) nodes)
    (hcomm : nodes.filter
      (fun n => isComm (decide_global_ordering_comms g) n) = commIds g)
    (ha : isComm (decide_global_ordering_comms g) a = true)
    (hb : isComm (decide_global_ordering_comms g) b = true)
    (hab : Precedes nodes a b) :
    (∀ out, dumb_reordering (decide_global_ordering_comms g) nodes =
        some out → Precedes out a b) ∧
      ∀ fuel out, smart_reordering fuel (decide_global_ordering_comms g)
        nodes = some out → Precedes out a b := by
  have htrans : ∀ s out,
      raise_comms (decide_global_ordering_comms g)
        (sink_waits (decide_global_ordering_comms g) s) = some out →
      Precedes (s.filter
        (fun n => isComm (decide_global_ordering_comms g) n)) a b →
      Precedes out a b := by
    intro s out h hmid
    have h1 := sink_waits_comm_subseq (decide_global_ordering_comms g) s
    have h2 := raise_comms_comm_subseq h
    have h3 : Precedes (out.filter
        (fun n => isComm (decide_global_ordering_comms g) n)) a b := by
      rw [h2, h1]
      exact hmid
    exact precedes_of_sublist (List.filter_sublist out) h3
  constructor
  · intro out h
    exact htrans nodes out h (precedes_filter hab ha hb)
  · intro fuel out h
    have hane : a ∈ nodes.filter
        (fun n => isComm (decide_global_ordering_comms g) n) :=
      List.mem_filter.mpr ⟨precedes_mem_left hab, ha⟩
    cases hfe : nodes.filter
        (fun n => isComm (decide_global_ordering_comms g) n) with
    | nil => rw [hfe] at hane; simp at hane
    | cons c0 crest =>
      rcases smart_reordering_core (dg_WF hW) hnd hSL hfe h with
        ⟨res, hre, hperm, hTres⟩
      refine htrans res out hre ?_
      refine precedes_filter ?_ ha hb
      have hcs : Precedes (commIds g) a b := by
        rw [← hcomm]
        exact precedes_filter hab ha hb
      exact chain_precedes hTres (hperm.nodup_iff.mpr hnd) (commIds g)
        (comm_chain_edge hW) (commIds_nodup hW)
        (fun x hx => hperm.mem_iff.mpr
          (List.mem_of_mem_filter (hcomm ▸ hx)))
        a b hcs

theorem C2_comm_order_preserved_witness :
    Precedes [0, 2, 5, 1, 3, 6, 4] 2 3 :=
  (C2_comm_order_preserved (show WFGraph exG7 by decide)
    (show exL7.Nodup by decide)
    (show NoSelfLoop (decide_global_ordering_comms exG7) exL7 by decide)
    (show exL7.filter
      (fun n => isComm (decide_global_ordering_comms exG7) n) =
        commIds exG7 by decide)
    (show isComm (decide_global_ordering_comms exG7) 2 = true by decide)
    (show isComm (decide_global_ordering_comms exG7) 3 = true by decide)
    ⟨[0], [5, 1, 3, 6, 4], rfl, by decide⟩).2 30 [0, 2, 5, 1, 3, 6, 4]
    (by decide)
